import Mathlib

/-!
Verification of the `iregex-rs` regular-expression engine against its
natural-language specification.  The Rust sources are shallowly embedded:
`BTreeMap`s become association lists, `BTreeSet`s become duplicate-free
lists or `Finset`s, machine integers become `Nat` with explicit `% 2 ^ 32`
where the Rust code casts, and fallible code returns `Except`.
-/

namespace IRegexVerify

/-! ## Association-list finite maps

`BTreeMap` is modelled as an association list with at most one entry per
key; `BTreeSet` as a duplicate-free list.  Insertion order stands in for
the B-tree's key order: the claims below never depend on iteration order.
-/

/-- Lookup in an association list (`BTreeMap::get`). -/
def lookupA [DecidableEq K] (m : List (K × V)) (k : K) : Option V :=
  (m.find? (fun e => e.1 = k)).map (fun e => e.2)

/-- `BTreeMap::entry(k).or_default()` followed by replacing the value by
`f` applied to the previous value (or to `d` when absent). -/
def updateA [DecidableEq K] (m : List (K × V)) (k : K) (d : V) (f : V → V) :
    List (K × V) :=
  match m with
  | [] => [(k, f d)]
  | (k', v) :: rest =>
      if k' = k then (k', f v) :: rest else (k', v) :: updateA rest k d f

/-- `BTreeSet::insert` (no duplicates; returns the set). -/
def insertS [DecidableEq α] (x : α) (l : List α) : List α :=
  if x ∈ l then l else l ++ [x]

theorem mem_insertS [DecidableEq α] {x y : α} {l : List α} :
    y ∈ insertS x l ↔ y ∈ l ∨ y = x := by
  unfold insertS
  split
  · constructor
    · exact fun h => Or.inl h
    · rintro (h | rfl)
      · exact h
      · assumption
  · simp [or_comm]

theorem lookupA_updateA_self [DecidableEq K] (m : List (K × V)) (k : K)
    (d : V) (f : V → V) :
    lookupA (updateA m k d f) k =
      some (f ((lookupA m k).getD d)) := by
  induction m with
  | nil => simp [lookupA, updateA]
  | cons e rest ih =>
    obtain ⟨k', v⟩ := e
    by_cases h : k' = k
    · subst h
      simp [lookupA, updateA, List.find?]
    · simp only [updateA, if_neg h]
      simpa [lookupA, List.find?, h] using ih

theorem lookupA_updateA_other [DecidableEq K] (m : List (K × V)) {k k' : K}
    (d : V) (f : V → V) (h : k' ≠ k) :
    lookupA (updateA m k d f) k' = lookupA m k' := by
  induction m with
  | nil => simp [lookupA, updateA, List.find?, Ne.symm h]
  | cons e rest ih =>
    obtain ⟨k₀, v⟩ := e
    by_cases h0 : k₀ = k
    · subst h0
      simp [lookupA, updateA, List.find?, h, Ne.symm h]
    · by_cases h1 : k₀ = k'
      · subst h1
        simp [lookupA, updateA, List.find?, h0]
      · simp [lookupA, updateA, List.find?, h0, h1] at ih ⊢
        exact ih

/-! ## The NFA data structure

Embeds `NFA<Q, T>` from `crates/automata/src/nfa/mod.rs`:
`transitions: BTreeMap<Q, BTreeMap<Option<RangeSet<T>>, BTreeSet<Q>>>`,
`initial_states: BTreeSet<Q>`, `final_states: BTreeSet<Q>`.
The label type `L` models `RangeSet<T>`; its token-membership semantics is
supplied separately where stepping is needed.
-/

structure NFA (Q L : Type) where
  transitions : List (Q × List (Option L × List Q))
  initial_states : List Q
  final_states : List Q

/-- `NFA::new` / `Default::default`. -/
def NFA.new (Q L : Type) : NFA Q L := ⟨[], [], []⟩

/-- `NFA::add_state`: `self.transitions.entry(q).or_default()`. -/
def NFA.add_state [DecidableEq Q] (nfa : NFA Q L) (q : Q) : NFA Q L :=
  { nfa with transitions := updateA nfa.transitions q [] (fun v => v) }

/-- `NFA::add_initial_state`: `self.initial_states.insert(q)`.  Note the
transition table is not touched. -/
def NFA.add_initial_state [DecidableEq Q] (nfa : NFA Q L) (q : Q) : NFA Q L :=
  { nfa with initial_states := insertS q nfa.initial_states }

/-- `NFA::add_final_state`: `self.final_states.insert(q)`.  Note the
transition table is not touched. -/
def NFA.add_final_state [DecidableEq Q] (nfa : NFA Q L) (q : Q) : NFA Q L :=
  { nfa with final_states := insertS q nfa.final_states }

/-- `NFA::add(source, label, target)`: first `add_state(target)`, then
`transitions.entry(source).or_default().entry(label).or_default()
.insert(target)`. -/
def NFA.add [DecidableEq Q] [DecidableEq L] (nfa : NFA Q L) (source : Q)
    (label : Option L) (target : Q) : NFA Q L :=
  let nfa' := nfa.add_state target
  { nfa' with
    transitions :=
      updateA nfa'.transitions source []
        (fun tr => updateA tr label [] (fun ts => insertS target ts)) }

/-- `NFA::is_final_state`. -/
def NFA.is_final_state [DecidableEq Q] (nfa : NFA Q L) (q : Q) : Bool :=
  q ∈ nfa.final_states

/-- States that occur as the source or the target of some transition. -/
def NFA.edge_states (nfa : NFA Q L) : List Q :=
  nfa.transitions.flatMap (fun e => e.1 :: e.2.flatMap (fun l => l.2))

/-- The state `q` has a (possibly empty) entry in the transition table. -/
def NFA.has_entry [DecidableEq Q] (nfa : NFA Q L) (q : Q) : Bool :=
  (lookupA nfa.transitions q).isSome

/-- NFA well-formedness (spec §3 invariant): every state appearing as the
source or target of any transition, in the initial set, or in the final
set has a (possibly empty) entry in the transition table. -/
def NFA.WellFormed [DecidableEq Q] (nfa : NFA Q L) : Prop :=
  (∀ q ∈ nfa.edge_states, nfa.has_entry q) ∧
    (∀ q ∈ nfa.initial_states, nfa.has_entry q) ∧
    (∀ q ∈ nfa.final_states, nfa.has_entry q)

instance [DecidableEq Q] (nfa : NFA Q L) : Decidable nfa.WellFormed := by
  unfold NFA.WellFormed
  infer_instance

/-! ### Lemmas about the mutation operations -/

theorem has_entry_updateA [DecidableEq Q] (nfa : NFA Q L) (k : Q)
    (d : List (Option L × List Q)) (f : List (Option L × List Q) → List (Option L × List Q))
    (x : Q) (hx : nfa.has_entry x) :
    NFA.has_entry { nfa with transitions := updateA nfa.transitions k d f } x := by
  unfold NFA.has_entry at hx ⊢
  by_cases h : x = k
  · subst h
    rw [lookupA_updateA_self]
    rfl
  · rwa [lookupA_updateA_other _ _ _ h]

theorem has_entry_updateA_self [DecidableEq Q] (nfa : NFA Q L) (k : Q)
    (d : List (Option L × List Q)) (f : List (Option L × List Q) → List (Option L × List Q)) :
    NFA.has_entry { nfa with transitions := updateA nfa.transitions k d f } k := by
  unfold NFA.has_entry
  rw [lookupA_updateA_self]
  rfl

theorem mem_updateA [DecidableEq K] {m : List (K × V)} {k : K} {d : V}
    {f : V → V} {e : K × V} (he : e ∈ updateA m k d f) :
    e ∈ m ∨ ∃ v, e = (k, f v) ∧ (v = d ∨ (k, v) ∈ m) := by
  induction m with
  | nil =>
    simp only [updateA, List.mem_singleton] at he
    exact Or.inr ⟨d, he, Or.inl rfl⟩
  | cons p rest ih =>
    obtain ⟨k', v'⟩ := p
    by_cases h : k' = k
    · subst h
      rcases List.mem_cons.1 (by simpa [updateA] using he) with h' | h'
      · exact Or.inr ⟨v', h', Or.inr (List.mem_cons_self _ _)⟩
      · exact Or.inl (List.mem_cons_of_mem _ h')
    · rcases List.mem_cons.1 (by simpa [updateA, h] using he) with h' | h'
      · exact Or.inl (h' ▸ List.mem_cons_self _ _)
      · rcases ih h' with h'' | ⟨v, hv, hv'⟩
        · exact Or.inl (List.mem_cons_of_mem _ h'')
        · refine Or.inr ⟨v, hv, ?_⟩
          rcases hv' with hv' | hv'
          · exact Or.inl hv'
          · exact Or.inr (List.mem_cons_of_mem _ hv')

theorem mem_edge_states {nfa : NFA Q L} {x : Q} :
    x ∈ nfa.edge_states ↔
      ∃ e ∈ nfa.transitions, x = e.1 ∨ ∃ l ∈ e.2, x ∈ l.2 := by
  simp [NFA.edge_states, List.mem_flatMap]

theorem targets_label_update [DecidableEq L]
    {tr : List (Option L × List Q)} {label : Option L} {target : Q}
    {l : Option L × List Q} [DecidableEq Q]
    (hl : l ∈ updateA tr label [] (fun ts => insertS target ts)) {x : Q}
    (hx : x ∈ l.2) :
    (∃ l' ∈ tr, x ∈ l'.2) ∨ x = target := by
  rcases mem_updateA hl with h | ⟨v, hv, hv'⟩
  · exact Or.inl ⟨l, h, hx⟩
  · subst hv
    rcases mem_insertS.1 hx with h' | h'
    · rcases hv' with hv' | hv'
      · subst hv'; cases h'
      · exact Or.inl ⟨(label, v), hv', h'⟩
    · exact Or.inr h'

theorem edge_states_add_state [DecidableEq Q] (nfa : NFA Q L) (q : Q) (x : Q)
    (hx : x ∈ (nfa.add_state q).edge_states) :
    x ∈ nfa.edge_states ∨ x = q := by
  rcases mem_edge_states.1 hx with ⟨e, he, hcase⟩
  rcases mem_updateA he with h | ⟨v, hv, hv'⟩
  · exact Or.inl (mem_edge_states.2 ⟨e, h, hcase⟩)
  · subst hv
    rcases hv' with hv' | hv'
    · subst hv'
      rcases hcase with h' | ⟨l, hl, _⟩
      · exact Or.inr h'
      · cases hl
    · exact Or.inl (mem_edge_states.2 ⟨(q, v), hv', hcase⟩)

theorem edge_states_add [DecidableEq Q] [DecidableEq L] (nfa : NFA Q L)
    (source : Q) (label : Option L) (target : Q) (x : Q)
    (hx : x ∈ (nfa.add source label target).edge_states) :
    x ∈ (nfa.add_state target).edge_states ∨ x = source ∨ x = target := by
  rcases mem_edge_states.1 hx with ⟨e, he, hcase⟩
  rcases mem_updateA he with h | ⟨v, hv, hv'⟩
  · exact Or.inl (mem_edge_states.2 ⟨e, h, hcase⟩)
  · subst hv
    rcases hcase with h' | ⟨l, hl, hxl⟩
    · exact Or.inr (Or.inl h')
    · rcases targets_label_update hl hxl with ⟨l', hl', hx'⟩ | h'
      · rcases hv' with hv' | hv'
        · subst hv'; cases hl'
        · exact Or.inl (mem_edge_states.2
            ⟨(source, v), hv', Or.inr ⟨l', hl', hx'⟩⟩)
      · exact Or.inr (Or.inr h')

/-- C5, counterexample: `add_initial_state` on the empty (well-formed) NFA
registers an initial state with no entry in the transition table, so the
operation does not preserve well-formedness unconditionally. -/
theorem c5_counterexample :
    (NFA.new Nat Unit).WellFormed ∧
      ¬ ((NFA.new Nat Unit).add_initial_state 0).WellFormed := by
  decide

/-- C5 (amended): `add_state` and `add` preserve NFA well-formedness
unconditionally; `add_initial_state q` and `add_final_state q` preserve it
provided `q` already has an entry in the transition table (which is how the
compiler uses them: every state comes from `StateBuilder::next_state`,
which calls `add_state` first). -/
theorem c5_mutations_preserve_wellformedness {Q L : Type} [DecidableEq Q]
    [DecidableEq L] (nfa : NFA Q L) (hwf : nfa.WellFormed) :
    (∀ q, (nfa.add_state q).WellFormed) ∧
      (∀ s l t, (nfa.add s l t).WellFormed) ∧
      (∀ q, nfa.has_entry q → (nfa.add_initial_state q).WellFormed) ∧
      (∀ q, nfa.has_entry q → (nfa.add_final_state q).WellFormed) := by
  obtain ⟨he, hi, hf⟩ := hwf
  refine ⟨?_, ?_, ?_, ?_⟩
  · intro q
    refine ⟨?_, ?_, ?_⟩
    · intro x hx
      rcases edge_states_add_state nfa q x hx with h | h
      · exact has_entry_updateA nfa q [] _ x (he x h)
      · exact h ▸ has_entry_updateA_self nfa q [] _
    · intro x hx
      exact has_entry_updateA nfa q [] _ x (hi x hx)
    · intro x hx
      exact has_entry_updateA nfa q [] _ x (hf x hx)
  · intro s l t
    have hstate : ∀ x, (nfa.add_state t).has_entry x →
        (nfa.add s l t).has_entry x := by
      intro x hx
      exact has_entry_updateA (nfa.add_state t) s [] _ x hx
    have hsrc : (nfa.add s l t).has_entry s :=
      has_entry_updateA_self (nfa.add_state t) s [] _
    have htgt : (nfa.add s l t).has_entry t :=
      hstate t (has_entry_updateA_self nfa t [] _)
    refine ⟨?_, ?_, ?_⟩
    · intro x hx
      rcases edge_states_add nfa s l t x hx with h | h | h
      · rcases edge_states_add_state nfa t x h with h' | h'
        · exact hstate x (has_entry_updateA nfa t [] _ x (he x h'))
        · subst h'; exact htgt
      · subst h; exact hsrc
      · subst h; exact htgt
    · intro x hx
      exact hstate x (has_entry_updateA nfa t [] _ x (hi x hx))
    · intro x hx
      exact hstate x (has_entry_updateA nfa t [] _ x (hf x hx))
  · intro q hq
    refine ⟨he, ?_, hf⟩
    intro x hx
    rcases mem_insertS.1 hx with h | h
    · exact hi x h
    · subst h; exact hq
  · intro q hq
    refine ⟨he, hi, ?_⟩
    intro x hx
    rcases mem_insertS.1 hx with h | h
    · exact hf x h
    · subst h; exact hq

/-- Witness for C5's amended theorem at a concrete well-formed NFA. -/
theorem c5_witness :
    ((NFA.new Nat Unit).add_state 7).WellFormed ∧
      ((((NFA.new Nat Unit).add_state 7).add_state 3).WellFormed ∧
        (((NFA.new Nat Unit).add_state 7).add 1 none 2).WellFormed ∧
        (((NFA.new Nat Unit).add_state 7).add_initial_state 7).WellFormed ∧
        (((NFA.new Nat Unit).add_state 7).add_final_state 7).WellFormed) :=
  ⟨by decide,
    (c5_mutations_preserve_wellformedness ((NFA.new Nat Unit).add_state 7)
      (by decide)).1 3,
    (c5_mutations_preserve_wellformedness ((NFA.new Nat Unit).add_state 7)
      (by decide)).2.1 1 none 2,
    (c5_mutations_preserve_wellformedness ((NFA.new Nat Unit).add_state 7)
      (by decide)).2.2.1 7 (by decide),
    (c5_mutations_preserve_wellformedness ((NFA.new Nat Unit).add_state 7)
      (by decide)).2.2.2 7 (by decide)⟩

/-! ## State builder

`U32StateBuilder` from `crates/automata/src/nfa/mod.rs`.  Rust's
`states.len() as u32` is a wrapping cast, embedded as `% 2 ^ 32`.
States are `Nat` (u32 values).  The `class` store is kept as a list whose
length is the number of allocations so far.
-/

inductive TooManyStates where
  | tooManyStates

instance : DecidableEq TooManyStates := fun a b => by
  cases a; cases b; exact isTrue rfl

structure U32StateBuilder (C : Type) where
  states : List C
  limit : Nat

/-- `U32StateBuilder::default()`: empty store, `limit = u32::MAX`. -/
def U32StateBuilder.default (C : Type) : U32StateBuilder C :=
  ⟨[], 2 ^ 32 - 1⟩

/-- `U32StateBuilder::next_state`: `q = states.len() as u32`; push the
class; error if `states.len() as u32 > limit`, else `nfa.add_state(q)`.
On error the class was still pushed but the NFA is untouched and no state
is returned. -/
def U32StateBuilder.next_state [DecidableEq L] (sb : U32StateBuilder C)
    (nfa : NFA Nat L) (cls : C) :
    Except TooManyStates (U32StateBuilder C × NFA Nat L × Nat) :=
  let q := sb.states.length % 2 ^ 32
  let states' := sb.states ++ [cls]
  if states'.length % 2 ^ 32 > sb.limit then
    Except.error TooManyStates.tooManyStates
  else
    Except.ok (⟨states', sb.limit⟩, nfa.add_state q, q)

/-- `U32StateBuilder::class_of`. -/
def U32StateBuilder.class_of (sb : U32StateBuilder C) (q : Nat) : Option C :=
  sb.states.get? q

/-! ## Tags

`Tags<Q, G>` from `crates/automata/src/nfa/tags.rs`: a `BTreeMap` from
ordered state pair to a set of tag values.
-/

structure Tags (Q G : Type) where
  entries : List ((Q × Q) × List G)

/-- `Tags::new`. -/
def Tags.new (Q G : Type) : Tags Q G := ⟨[]⟩

/-- `Tags::insert(source, tag, target)`. -/
def Tags.insert [DecidableEq Q] [DecidableEq G] (tags : Tags Q G)
    (source : Q) (tag : G) (target : Q) : Tags Q G :=
  ⟨updateA tags.entries (source, target) [] (fun ts => insertS tag ts)⟩

/-- Capture tag (`CaptureTag` in `src/ir/mod.rs`). -/
inductive CaptureTag where
  | beginTag (id : Nat)
  | endTag (id : Nat)
deriving DecidableEq

/-- `TaggedNFA` from `crates/automata/src/nfa/tags.rs`. -/
structure TaggedNFA (Q L G : Type) where
  untagged : NFA Q L
  tags : Tags Q G

/-! ## The IR

IR nodes from `src/ir/`.  The embedding is specialized to the trivial
boundary/class `B = C = ()`, the only `Boundary` and `Class` instances
defined in the repository; the per-class exit map `C::Map<Q>` is then
`Unmapped<Q>`, i.e. `Option Q`.  Token sets (`RangeSet<T>`) are an
abstract label type `L` with decidable equality; `classify` for the
trivial class returns the whole set, so no range arithmetic is needed
during compilation.
-/

/-- `Repeat` from `src/ir/mod.rs` (`min: u32`, `max: Option<u32>`). -/
structure Repeat where
  min : Nat
  max : Option Nat
deriving DecidableEq

/-- `Repeat::ONCE`. -/
def Repeat.once : Repeat := ⟨1, some 1⟩

/-- `Repeat::STAR`. -/
def Repeat.star : Repeat := ⟨0, none⟩

/-- `Repeat::is_zero`: `max < min` when `max` is finite, else false. -/
def Repeat.is_zero (r : Repeat) : Bool :=
  match r.max with
  | some m => m < r.min
  | none => false

/-- `Repeat::is_one`. -/
def Repeat.is_one (r : Repeat) : Bool :=
  r.min = 1 && r.max = some 1

/-- `Atom` from `src/ir/atom.rs`, with `Concatenation` as `List (Atom L)`
and `Alternation` as a list of concatenations. -/
inductive Atom (L : Type) where
  | boundary
  | token (set : L)
  | rep (alt : List (List (Atom L))) (r : Repeat)
  | capture (id : Nat) (alt : List (List (Atom L)))

/-- `Concatenation` (`src/ir/concatenation.rs`): an atom sequence. -/
abbrev Concatenation (L : Type) : Type := List (Atom L)

/-- `Alternation` (`src/ir/alternation.rs`): a sequence disjunction. -/
abbrev Alternation (L : Type) : Type := List (Concatenation L)

/-- `Affix` from `src/ir/affix.rs`. -/
inductive Affix (L : Type) where
  | any
  | anchor
  | alternation (alt : Alternation L)

/-- `IRegEx` (`src/ir/mod.rs`); `pre`/`suf` are the source's
`prefix`/`suffix` fields. -/
structure IRegEx (L : Type) where
  root : Alternation L
  pre : Affix L
  suf : Affix L

/-- `IRegEx::anchored`. -/
def IRegEx.anchored (root : Alternation L) : IRegEx L :=
  ⟨root, Affix.anchor, Affix.anchor⟩

/-- `IRegEx::unanchored`. -/
def IRegEx.unanchored (root : Alternation L) : IRegEx L :=
  ⟨root, Affix.any, Affix.any⟩

/-! ## The IR → NFA compiler

Embeds `build_nfa_from` for each IR node, at the trivial class.  The
`(state_builder, nfa, tags)` triple threaded by `&mut` in Rust becomes an
explicit state value `BState`.  `atom.rs` and `concatenation.rs` predate
the tagged `BuildNFA` trait and take no `tags` argument; the embedding
threads `tags` through them unchanged, which is what their code does with
the remaining state.
-/

abbrev BState (L : Type) := U32StateBuilder Unit × NFA Nat L × Tags Nat CaptureTag

/-- `state_builder.next_state(nfa, class)` inside a build function. -/
def bnext [DecidableEq L] (st : BState L) :
    Except TooManyStates (BState L × Nat) := do
  let (sb, nfa, q) ← st.1.next_state st.2.1 ()
  pure ((sb, nfa, st.2.2), q)

/-- `nfa.add(source, label, target)` inside a build function. -/
def badd [DecidableEq L] (st : BState L) (s : Nat) (l : Option L) (t : Nat) :
    BState L :=
  (st.1, st.2.1.add s l t, st.2.2)

/-- The exit-merge discipline of `Concatenation::build_nfa_from` and
`ClassConcatenation::insert` (`src/ir/mod.rs`): insert exit `q` into the
frontier map; when a different state already holds the class, allocate a
join state `d` once (latched by the `merging` flag) and ε-connect both
contributors to it; later contributors ε-connect to `d` directly. -/
def class_concat_insert [DecidableEq L] (st : BState L)
    (map : Option (Nat × Bool)) (q : Nat) :
    Except TooManyStates (BState L × Option (Nat × Bool)) :=
  match map with
  | none => pure (st, some (q, false))
  | some (r, merging) =>
    if r ≠ q then
      if merging then pure (badd st q none r, some (r, merging))
      else do
        let (st, d) ← bnext st
        let st := badd st q none d
        let st := badd st r none d
        pure (st, some (d, true))
    else pure (st, map)

/-- `ClassAlternation::insert` (`src/ir/mod.rs`) and
`Map::get_or_try_insert_with(class, next_state)` at the trivial class:
return the shared exit for the class, allocating it on first use. -/
def class_alt_insert [DecidableEq L] (st : BState L) (output : Option Nat) :
    Except TooManyStates (BState L × Option Nat × Nat) :=
  match output with
  | some b => pure (st, output, b)
  | none => do
      let (st, b) ← bnext st
      pure (st, some b, b)

/-- Termination weight of a `Repeat` for the recursion in
`Repeat::build_nfa_for`. -/
def repeatWeight (r : Repeat) : Nat :=
  2 * r.min + r.max.elim 2 (fun m => m + 1)

theorem Repeat.sizeOf_pos (r : Repeat) : 0 < sizeOf r := by
  cases r
  simp

mutual

/-- `Atom::build_nfa_from` (`src/ir/atom.rs`), at the trivial
boundary/class.  `Boundary` always applies (`().apply(()) = Some(())`);
`classify` returns the whole token set; `Capture` delegates to the inner
alternation, recording nothing in `tags`. -/
def build_atom [DecidableEq L] (a : Atom L) (st : BState L) :
    Except TooManyStates (BState L × Nat × Option Nat) :=
  match a with
  | .boundary => do
      let (st, a) ← bnext st
      let (st, b) ← bnext st
      pure (st, a, some b)
  | .token set => do
      let (st, a) ← bnext st
      let (st, b) ← bnext st
      let st := badd st a (some set) b
      pure (st, a, some b)
  | .rep alt r => build_repeat r alt st
  | .capture _ alt => build_alternation alt st
termination_by (sizeOf a, 0)
decreasing_by
  all_goals simp_wf
  all_goals first
  | omega
  | (apply Prod.Lex.left
     first
     | omega
     | (have hs := Repeat.sizeOf_pos r <;> omega)
     | (simp <;> omega)
     | (simp; done))
  | (apply Prod.Lex.right
     first
     | omega
     | (simp <;> omega)
     | (simp; done)
     | (simp [repeatWeight, *] <;> omega)
     | (cases hr : r.max <;> simp [repeatWeight, hr, *] <;> omega))

/-- `Concatenation::build_nfa_from` (`src/ir/concatenation.rs`). -/
def build_concatenation [DecidableEq L] (c : List (Atom L)) (st : BState L) :
    Except TooManyStates (BState L × Nat × Option Nat) :=
  match c with
  | [] => do
      let (st, a) ← bnext st
      pure (st, a, some a)
  | [atom] => build_atom atom st
  | list => do
      let (st, a) ← bnext st
      let (st, map) ← build_concat_fold list (some (a, false)) st
      pure (st, a, map.map (fun e => e.1))
termination_by (sizeOf c, 1)
decreasing_by
  all_goals simp_wf
  all_goals first
  | omega
  | (apply Prod.Lex.left
     first
     | omega
     | (have hs := Repeat.sizeOf_pos r <;> omega)
     | (simp <;> omega)
     | (simp; done))
  | (apply Prod.Lex.right
     first
     | omega
     | (simp <;> omega)
     | (simp; done)
     | (simp [repeatWeight, *] <;> omega)
     | (cases hr : r.max <;> simp [repeatWeight, hr, *] <;> omega))

/-- The `for atom in list` loop of `Concatenation::build_nfa_from`: thread
the frontier map through the atoms.  At the trivial class the taken map
has at most one entry `(b, _)`; an absent frontier builds nothing. -/
def build_concat_fold [DecidableEq L] (atoms : List (Atom L))
    (map : Option (Nat × Bool)) (st : BState L) :
    Except TooManyStates (BState L × Option (Nat × Bool)) :=
  match atoms with
  | [] => pure (st, map)
  | atom :: rest => do
      let (st, newMap) ←
        match map with
        | none => pure (st, (none : Option (Nat × Bool)))
        | some (b, _) => do
            let (st, atom_a, atom_b_map) ← build_atom atom st
            let st := badd st b none atom_a
            match atom_b_map with
            | none => pure (st, (none : Option (Nat × Bool)))
            | some atom_b => class_concat_insert st none atom_b
      build_concat_fold rest newMap st
termination_by (sizeOf atoms, 0)
decreasing_by
  all_goals simp_wf
  all_goals first
  | omega
  | (apply Prod.Lex.left
     first
     | omega
     | (have hs := Repeat.sizeOf_pos r <;> omega)
     | (simp <;> omega)
     | (simp; done))
  | (apply Prod.Lex.right
     first
     | omega
     | (simp <;> omega)
     | (simp; done)
     | (simp [repeatWeight, *] <;> omega)
     | (cases hr : r.max <;> simp [repeatWeight, hr, *] <;> omega))

/-- `Alternation::build_nfa_from` (`src/ir/alternation.rs`). -/
def build_alternation [DecidableEq L] (alt : List (List (Atom L)))
    (st : BState L) :
    Except TooManyStates (BState L × Nat × Option Nat) :=
  match alt with
  | [] => do
      let (st, a) ← bnext st
      pure (st, a, none)
  | [concat] => build_concatenation concat st
  | list => do
      let (st, a) ← bnext st
      let (st, output) ← build_alt_fold list a none st
      pure (st, a, output)
termination_by (sizeOf alt, 1)
decreasing_by
  all_goals simp_wf
  all_goals first
  | omega
  | (apply Prod.Lex.left
     first
     | omega
     | (have hs := Repeat.sizeOf_pos r <;> omega)
     | (simp <;> omega)
     | (simp; done))
  | (apply Prod.Lex.right
     first
     | omega
     | (simp <;> omega)
     | (simp; done)
     | (simp [repeatWeight, *] <;> omega)
     | (cases hr : r.max <;> simp [repeatWeight, hr, *] <;> omega))

/-- The `for concat in list` loop of `Alternation::build_nfa_from`. -/
def build_alt_fold [DecidableEq L] (cs : List (List (Atom L))) (a : Nat)
    (output : Option Nat) (st : BState L) :
    Except TooManyStates (BState L × Option Nat) :=
  match cs with
  | [] => pure (st, output)
  | concat :: rest => do
      let (st, concat_a, concat_b_map) ← build_concatenation concat st
      let st := badd st a none concat_a
      let (st, output) ←
        match concat_b_map with
        | none => pure (st, output)
        | some concat_b => do
            let (st, output, b) ← class_alt_insert st output
            pure (badd st concat_b none b, output)
      build_alt_fold rest a output st
termination_by (sizeOf cs, 0)
decreasing_by
  all_goals simp_wf
  all_goals first
  | omega
  | (apply Prod.Lex.left
     first
     | omega
     | (have hs := Repeat.sizeOf_pos r <;> omega)
     | (simp <;> omega)
     | (simp; done))
  | (apply Prod.Lex.right
     first
     | omega
     | (simp <;> omega)
     | (simp; done)
     | (simp [repeatWeight, *] <;> omega)
     | (cases hr : r.max <;> simp [repeatWeight, hr, *] <;> omega))

/-- `Repeat::build_nfa_for` (`src/ir/mod.rs`), at the trivial class. -/
def build_repeat [DecidableEq L] (r : Repeat) (alt : List (List (Atom L)))
    (st : BState L) :
    Except TooManyStates (BState L × Nat × Option Nat) :=
  if r.is_zero then do
    let (st, a) ← bnext st
    pure (st, a, some a)
  else if r.is_one then build_alternation alt st
  else if hmin : 0 < r.min then do
    let (st, a, bs) ← build_alternation alt st
    let (st, output) ←
      match bs with
      | none => pure (st, (none : Option (Nat × Bool)))
      | some b => do
          let (st, c, ds) ←
            build_repeat ⟨r.min - 1, r.max.map (fun m => m - 1)⟩ alt st
          let st := badd st b none c
          match ds with
          | none => pure (st, (none : Option (Nat × Bool)))
          | some d => class_concat_insert st none d
    pure (st, a, output.map (fun e => e.1))
  else
    match hmax : r.max with
    | some mx => do
        let (st, a) ← bnext st
        let (st, b, b_output) ← build_alternation alt st
        let (st, f) ← bnext st
        let st := badd st a none b
        let st := badd st a none f
        let output : Option Nat := some f
        let (st, output) ←
          match b_output with
          | none => pure (st, output)
          | some c =>
              if 0 < mx then do
                let (st, d, d_output) ← build_repeat ⟨0, some (mx - 1)⟩ alt st
                let st := badd st c none d
                match d_output with
                | none => pure (st, output)
                | some e => do
                    let (st, output, f') ← class_alt_insert st output
                    pure (badd st e none f', output)
              else do
                let (st, output, f') ← class_alt_insert st output
                pure (badd st c none f', output)
        pure (st, a, output)
    | none => do
        let (st, mp, q) ← build_kleene none alt st
        pure (st, q, mp)
termination_by (sizeOf alt + 1, repeatWeight r)
decreasing_by
  all_goals simp_wf
  all_goals first
  | omega
  | (apply Prod.Lex.left
     first
     | omega
     | (have hs := Repeat.sizeOf_pos r <;> omega)
     | (simp <;> omega)
     | (simp; done))
  | (apply Prod.Lex.right
     first
     | omega
     | (simp <;> omega)
     | (simp; done)
     | (simp [repeatWeight, *] <;> omega)
     | (cases hr : r.max <;> simp [repeatWeight, hr, *] <;> omega))

/-- `kleene_star_closure` (`src/ir/mod.rs`), at the trivial class: the
per-class map is `Option Nat`; the recursive call for the body's exit
class finds the class already in the map and returns its loop state. -/
def build_kleene [DecidableEq L] (map : Option Nat)
    (alt : List (List (Atom L))) (st : BState L) :
    Except TooManyStates (BState L × Option Nat × Nat) :=
  match map with
  | some q => pure (st, map, q)
  | none => do
      let (st, q) ← bnext st
      let st := badd st q none q
      let (st, a, bs) ← build_alternation alt st
      let st := badd st q none a
      let (st, map') ←
        match bs with
        | none => pure (st, (some q : Option Nat))
        | some b => do
            let (st, map', target) ← build_kleene (some q) alt st
            pure (badd st b none target, map')
      pure (st, map', q)
termination_by (sizeOf alt + 1, if map.isSome then 0 else 1)
decreasing_by
  all_goals simp_wf
  all_goals first
  | omega
  | (apply Prod.Lex.left
     first
     | omega
     | (have hs := Repeat.sizeOf_pos r <;> omega)
     | (simp <;> omega)
     | (simp; done))
  | (apply Prod.Lex.right
     first
     | omega
     | (simp <;> omega)
     | (simp; done)
     | (simp [repeatWeight, *] <;> omega)
     | (cases hr : r.max <;> simp [repeatWeight, hr, *] <;> omega))

end

/-! ## `build_nfa`, affixes, and `IRegEx::compile` -/

theorem exc_bind_ok {E α β : Type} (a : α) (f : α → Except E β) :
    (Except.ok a >>= f) = f a := rfl

theorem exc_bind_error {E α β : Type} (e : E) (f : α → Except E β) :
    ((Except.error e : Except E α) >>= f) = Except.error e := rfl

theorem exc_map_ok {E α β : Type} (f : α → β) (a : α) :
    (f <$> (Except.ok a : Except E α)) = Except.ok (f a) := rfl

/-- `BuildNFA::build_nfa` (`crates/automata/src/nfa/mod.rs`): run a build
function on a fresh NFA and fresh tags, then mark the entry initial and
every exit final. -/
def build_nfa_with [DecidableEq L]
    (build : BState L → Except TooManyStates (BState L × Nat × Option Nat))
    (sb : U32StateBuilder Unit) :
    Except TooManyStates (U32StateBuilder Unit × TaggedNFA Nat L CaptureTag) := do
  let ((sb, nfa, tags), a, bs) ← build (sb, NFA.new Nat L, Tags.new Nat CaptureTag)
  let nfa := nfa.add_initial_state a
  let nfa :=
    match bs with
    | none => nfa
    | some b => nfa.add_final_state b
  pure (sb, ⟨nfa, tags⟩)

/-- `Affix::build_nfa_from` (`src/ir/affix.rs`): `Any` is a star over
`Token(T::all())` (`allL` models `T::all()`), `Anchor` is an alternation
of one empty concatenation, `Alternation` delegates. -/
def build_affix [DecidableEq L] (af : Affix L) (allL : L) (st : BState L) :
    Except TooManyStates (BState L × Nat × Option Nat) :=
  match af with
  | .any => build_alternation [[Atom.rep [[Atom.token allL]] Repeat.star]] st
  | .anchor => build_alternation [[]] st
  | .alternation alt => build_alternation alt st

/-- `CompoundAutomaton` (`src/compiled.rs`) at the trivial class: the
`root` and `suffix` maps are `Unmapped`, i.e. `Option`; `pre`/`suf` are
the source's `prefix`/`suffix` fields. -/
structure CompoundNFA (L : Type) where
  pre : TaggedNFA Nat L CaptureTag
  root : Option (TaggedNFA Nat L CaptureTag)
  suf : Option (TaggedNFA Nat L CaptureTag)

/-- `IRegEx::compile` (`src/ir/mod.rs`) at the trivial boundary: build the
prefix; if it has any final state (whose class is necessarily `()`) build
the root once; if the root has any final state build the suffix once.
`Unmapped`'s `get_or_try_insert_with` builds on the first final state and
is a no-op on the rest. -/
def compile [DecidableEq L] (ir : IRegEx L) (allL : L)
    (sb : U32StateBuilder Unit) : Except TooManyStates (CompoundNFA L) := do
  let (sb, pre) ← build_nfa_with (build_affix ir.pre allL) sb
  let (sb, root) ←
    if pre.untagged.final_states.isEmpty then
      pure (sb, (none : Option (TaggedNFA Nat L CaptureTag)))
    else do
      let (sb, r) ← build_nfa_with (build_alternation ir.root) sb
      pure (sb, some r)
  let (_, suffix) ←
    match root with
    | none => pure (sb, (none : Option (TaggedNFA Nat L CaptureTag)))
    | some r =>
      if r.untagged.final_states.isEmpty then
        pure (sb, (none : Option (TaggedNFA Nat L CaptureTag)))
      else do
        let (sb, s) ← build_nfa_with (build_affix ir.suf allL) sb
        pure (sb, some s)
  pure ⟨pre, root, suffix⟩

/-! ## C7: `Repeat::is_zero` and the empty repetition -/

/-- C7: `is_zero` holds exactly when `max` is finite and `max < min`, and
in that case `build_nfa_for` allocates one fresh state `a` in the current
class, adds it to the NFA, and returns entry `a` with the singleton exit
map `{class ↦ a}`; the tags are untouched. -/
theorem c7_is_zero_empty_repetition {L : Type} [DecidableEq L] (r : Repeat) :
    (r.is_zero = true ↔ ∃ m, r.max = some m ∧ m < r.min) ∧
      (∀ (alt : Alternation L) (st : BState L),
        r.is_zero = true →
        (st.1.states.length + 1) % 2 ^ 32 ≤ st.1.limit →
        build_repeat r alt st =
          Except.ok ((⟨st.1.states ++ [()], st.1.limit⟩,
            st.2.1.add_state (st.1.states.length % 2 ^ 32), st.2.2),
            st.1.states.length % 2 ^ 32,
            some (st.1.states.length % 2 ^ 32))) := by
  constructor
  · unfold Repeat.is_zero
    cases hm : r.max <;> simp
  · intro alt st hz hroom
    obtain ⟨sb, nfa, tags⟩ := st
    rw [build_repeat]
    rw [if_pos hz]
    simp only [bnext, U32StateBuilder.next_state, exc_bind_ok]
    rw [if_neg (by simpa using Nat.not_lt.2 hroom)]
    rfl

/-- Witness for C7 at `Repeat {min := 2, max := some 1}` and a fresh
builder. -/
theorem c7_witness :
    ((Repeat.mk 2 (some 1)).is_zero = true ↔
        ∃ m, (Repeat.mk 2 (some 1)).max = some m ∧ m < (Repeat.mk 2 (some 1)).min) ∧
      build_repeat (Repeat.mk 2 (some 1)) ([[]] : Alternation Unit)
          (U32StateBuilder.default Unit, NFA.new Nat Unit, Tags.new Nat CaptureTag) =
        Except.ok ((⟨[()], 2 ^ 32 - 1⟩, (NFA.new Nat Unit).add_state 0,
          Tags.new Nat CaptureTag), 0, some 0) :=
  ⟨(c7_is_zero_empty_repetition (L := Unit) (Repeat.mk 2 (some 1))).1,
    by
      have h := (c7_is_zero_empty_repetition (L := Unit)
        (Repeat.mk 2 (some 1))).2 [[]]
        (U32StateBuilder.default Unit, NFA.new Nat Unit, Tags.new Nat CaptureTag)
        (by decide) (by norm_num [U32StateBuilder.default])
      simpa [U32StateBuilder.default] using h⟩

/-! ## C4: the `Capture` atom records no tags -/

/-- C4: evaluating `Atom::build_nfa_from` on a `Capture` atom.  The code
delegates to the inner alternation: the automaton is exactly the inner
alternation's automaton and the tags map stays empty — no `Begin`/`End`
mark is ever inserted (`Tags::insert` is never called by the compiler). -/
theorem c4_capture_records_no_tags :
    build_atom (Atom.capture 5 ([[]] : Alternation Unit))
        (U32StateBuilder.default Unit, NFA.new Nat Unit, Tags.new Nat CaptureTag) =
      build_alternation ([[]] : Alternation Unit)
        (U32StateBuilder.default Unit, NFA.new Nat Unit, Tags.new Nat CaptureTag) ∧
    build_atom (Atom.capture 5 ([[]] : Alternation Unit))
        (U32StateBuilder.default Unit, NFA.new Nat Unit, Tags.new Nat CaptureTag) =
      Except.ok ((⟨[()], 2 ^ 32 - 1⟩, ⟨[(0, [])], [], []⟩, ⟨[]⟩), 0, some 0) := by
  constructor
  · rw [build_atom]
  · rw [build_atom, build_alternation, build_concatenation]
    simp [bnext, U32StateBuilder.next_state, U32StateBuilder.default,
      NFA.new, NFA.add_state, Tags.new, updateA]

/-! ## C8: the `U32StateBuilder` state limit -/

/-- A run of `k` successive `next_state` allocations, threading the
builder and the NFA and stopping at the first error, as `IRegEx::compile`
does (the `?` operator propagates the error and no automaton is
returned). -/
def alloc_run (k : Nat) (sb : U32StateBuilder Unit) (nfa : NFA Nat Unit) :
    Except TooManyStates (U32StateBuilder Unit × NFA Nat Unit) :=
  match k with
  | 0 => Except.ok (sb, nfa)
  | k + 1 => do
      let (sb, nfa, _) ← sb.next_state nfa ()
      alloc_run k sb nfa

theorem alloc_run_ok_iff (k : Nat) (s : List Unit) (lim : Nat)
    (nfa : NFA Nat Unit) :
    (∃ r, alloc_run k ⟨s, lim⟩ nfa = Except.ok r) ↔
      ∀ i, s.length < i → i ≤ s.length + k → i % 2 ^ 32 ≤ lim := by
  induction k generalizing s nfa with
  | zero =>
    simp only [alloc_run]
    constructor
    · intro _ i h1 h2
      omega
    · intro _
      exact ⟨_, rfl⟩
  | succ k ih =>
    simp only [alloc_run, U32StateBuilder.next_state]
    by_cases h : (s ++ [()]).length % 2 ^ 32 > lim
    · rw [if_pos h]
      simp only [exc_bind_error]
      constructor
      · rintro ⟨r, hr⟩
        cases hr
      · intro hall
        exfalso
        have := hall (s.length + 1) (by omega) (by omega)
        simp at h
        omega
    · rw [if_neg h]
      simp only [exc_bind_ok]
      rw [ih (s ++ [()]) (nfa.add_state (s.length % 2 ^ 32))]
      have hle : (s.length + 1) % 2 ^ 32 ≤ lim := by
        have := Nat.not_lt.1 h
        simpa using this
      simp only [List.length_append, List.length_singleton]
      constructor
      · intro hall i h1 h2
        rcases Nat.lt_or_ge (s.length + 1) i with hgt | hle'
        · exact hall i (by omega) (by omega)
        · have hi : i = s.length + 1 := by omega
          subst hi
          exact hle
      · intro hall i h1 h2
        exact hall i (by omega) (by omega)

/-- C8 (amended): for any limit `L` with `L + 1 < 2^32`, a run of `k`
allocations from a fresh builder succeeds exactly when `k ≤ L` — i.e. the
first allocation that makes the count exceed `L` fails with
`TooManyStates`.  (With the default limit `2^32 − 1` the comparison is on
the wrapped count `len as u32` and the error can never fire; see the
counterexample.)  Moreover `compile` propagates the error: compiling even
the trivial anchored empty regex under limit `0` returns
`Err(TooManyStates)` and no automaton. -/
theorem c8_limit_exactly (k lim : Nat) (nfa : NFA Nat Unit)
    (h : lim + 1 < 2 ^ 32) :
    ((∃ r, alloc_run k ⟨[], lim⟩ nfa = Except.ok r) ↔ k ≤ lim) ∧
      compile (IRegEx.anchored ([[]] : Alternation Unit)) () ⟨[], 0⟩ =
        Except.error TooManyStates.tooManyStates := by
  constructor
  · rw [alloc_run_ok_iff]
    simp only [List.length_nil, Nat.zero_add]
    constructor
    · intro hall
      by_contra hk
      push_neg at hk
      have hx := hall (lim + 1) (by omega) (by omega)
      rw [Nat.mod_eq_of_lt (by omega)] at hx
      omega
    · intro hk i h1 h2
      rw [Nat.mod_eq_of_lt (by omega)]
      omega
  · rw [compile]
    rw [IRegEx.anchored]
    simp only [build_nfa_with, build_affix]
    rw [build_alternation, build_concatenation]
    simp [bnext, U32StateBuilder.next_state, exc_bind_ok, exc_bind_error]

/-- C8, counterexample to the claim as stated: with the default limit
`L = 2^32 − 1`, a run of `2^32` allocations — a count that exceeds `L` —
returns no error at all (the wrapped count `states.len() as u32` can
never exceed `u32::MAX`); state identifiers silently wrap instead. -/
theorem c8_counterexample :
    (∃ r, alloc_run (2 ^ 32) ⟨[], 2 ^ 32 - 1⟩ (NFA.new Nat Unit) =
        Except.ok r) ∧ 2 ^ 32 - 1 < 2 ^ 32 := by
  constructor
  · rw [alloc_run_ok_iff]
    intro i h1 h2
    have hm := Nat.mod_lt i (show 0 < 2 ^ 32 by norm_num)
    omega
  · norm_num

/-- Witness for C8's amended theorem at `k = 3`, `L = 2`. -/
theorem c8_witness :
    2 + 1 < 2 ^ 32 ∧
      (((∃ r, alloc_run 3 ⟨[], 2⟩ (NFA.new Nat Unit) = Except.ok r) ↔ 3 ≤ 2) ∧
        compile (IRegEx.anchored ([[]] : Alternation Unit)) () ⟨[], 0⟩ =
          Except.error TooManyStates.tooManyStates) :=
  ⟨by norm_num, c8_limit_exactly 3 2 (NFA.new Nat Unit) (by norm_num)⟩

/-! ## Closure saturation

The worklist ε-closures and the subset-exploration stack of the source are
modelled by a round-based saturation: repeat `X := X ∪ f X` until the
fixpoint.  The fuel argument bounds the rounds; when every `f Y` lies in a
fixed finite set `E` a fuel of `(X ∪ E).card` always reaches the fixpoint.
-/

def saturate [DecidableEq α] (f : Finset α → Finset α) (X : Finset α)
    (fuel : Nat) : Finset α :=
  match fuel with
  | 0 => X
  | fuel + 1 =>
      let X' := X ∪ f X
      if X' = X then X else saturate f X' fuel

theorem saturate_subset [DecidableEq α] (f : Finset α → Finset α)
    (X : Finset α) (fuel : Nat) : X ⊆ saturate f X fuel := by
  induction fuel generalizing X with
  | zero => exact Finset.Subset.refl X
  | succ fuel ih =>
    rw [saturate]
    split
    · exact Finset.Subset.refl X
    · exact Finset.Subset.trans Finset.subset_union_left (ih _)

theorem saturate_closed [DecidableEq α] (f : Finset α → Finset α)
    (E : Finset α) (hf : ∀ Y, f Y ⊆ E) (X : Finset α) (fuel : Nat)
    (hfuel : (X ∪ E).card ≤ fuel + X.card) :
    f (saturate f X fuel) ⊆ saturate f X fuel := by
  induction fuel generalizing X with
  | zero =>
    simp only [saturate]
    have hXE : X ∪ E = X :=
      (Finset.eq_of_subset_of_card_le Finset.subset_union_left
        (by simpa using hfuel)).symm
    intro a ha
    have : a ∈ X ∪ E := Finset.mem_union_right _ (hf X ha)
    rwa [hXE] at this
  | succ fuel ih =>
    rw [saturate]
    split
    · rename_i hfix
      intro a ha
      have : a ∈ X ∪ f X := Finset.mem_union_right _ ha
      rwa [hfix] at this
    · rename_i hfix
      apply ih
      have h1 : X ∪ f X ∪ E = X ∪ E := by
        have : f X ⊆ E := hf X
        rw [Finset.union_right_comm]
        rw [Finset.union_eq_left.2 (Finset.Subset.trans this Finset.subset_union_right)]
      rw [h1]
      have h2 : X.card < (X ∪ f X).card := by
        apply Finset.card_lt_card
        exact Finset.ssubset_iff_subset_ne.2 ⟨Finset.subset_union_left,
          fun h => hfix h.symm⟩
      omega

theorem saturate_min [DecidableEq α] (f : Finset α → Finset α)
    (hmono : ∀ A B, A ⊆ B → f A ⊆ f B) (X Y : Finset α) (fuel : Nat)
    (hXY : X ⊆ Y) (hY : f Y ⊆ Y) : saturate f X fuel ⊆ Y := by
  induction fuel generalizing X with
  | zero => exact hXY
  | succ fuel ih =>
    rw [saturate]
    split
    · exact hXY
    · exact ih _ (Finset.union_subset hXY
        (Finset.Subset.trans (hmono X Y hXY) hY))

/-! ## NFA semantics: ε-closure, the `Automaton` stepping contract,
`recognizes_empty`

Token membership in a label (`RangeSet::contains`) is an explicit
parameter `memT : L → T → Bool`.
-/

/-- `self.transitions.get(q)`, defaulting to no transitions. -/
def NFA.trans_of [DecidableEq Q] (nfa : NFA Q L) (q : Q) :
    List (Option L × List Q) :=
  (lookupA nfa.transitions q).getD []

/-- `transitions.get(&None)`: the ε-successors of `q`. -/
def NFA.eps_targets [DecidableEq Q] (nfa : NFA Q L) (q : Q) : List Q :=
  (nfa.trans_of q).flatMap (fun e =>
    match e.1 with
    | none => e.2
    | some _ => [])

/-- One ε-round from a set of states. -/
def NFA.eps_step [DecidableEq Q] (nfa : NFA Q L) (S : Finset Q) : Finset Q :=
  S.biUnion (fun q => (nfa.eps_targets q).toFinset)

/-- Edge states as a `Finset` (every ε-target lies in it). -/
def NFA.edge_finset [DecidableEq Q] (nfa : NFA Q L) : Finset Q :=
  nfa.edge_states.toFinset

/-- The ε-closure of a set of states (`modulo_epsilon_state` and the
closure loops of `initial_state` / `next_state`). -/
def NFA.eps_closure [DecidableEq Q] (nfa : NFA Q L) (S : Finset Q) :
    Finset Q :=
  saturate nfa.eps_step S (S ∪ nfa.edge_finset).card

theorem lookupA_mem [DecidableEq K] {m : List (K × V)} {k : K} {v : V}
    (h : lookupA m k = some v) : (k, v) ∈ m := by
  induction m with
  | nil => simp [lookupA] at h
  | cons e rest ih =>
    obtain ⟨k', v'⟩ := e
    by_cases hk : k' = k
    · subst hk
      simp only [lookupA] at h
      rw [List.find?_cons_of_pos _ (by simp)] at h
      have hv : v' = v := by simpa using h
      subst hv
      exact List.mem_cons_self _ _
    · simp only [lookupA] at h
      rw [List.find?_cons_of_neg _ (by simp [hk])] at h
      exact List.mem_cons_of_mem _ (ih h)

theorem eps_targets_subset_edge [DecidableEq Q] (nfa : NFA Q L) (q : Q)
    {x : Q} (hx : x ∈ nfa.eps_targets q) : x ∈ nfa.edge_finset := by
  simp only [NFA.eps_targets, NFA.trans_of, List.mem_flatMap] at hx
  obtain ⟨e, he, hxe⟩ := hx
  rcases hl : lookupA nfa.transitions q with _ | tr
  · rw [hl] at he
    simp at he
  · rw [hl] at he
    simp only [Option.getD_some] at he
    have hqm : (q, tr) ∈ nfa.transitions := lookupA_mem hl
    have hx2 : x ∈ e.2 := by
      rcases he1 : e.1 with _ | l
      · rwa [he1] at hxe
      · rw [he1] at hxe
        simp at hxe
    simp only [NFA.edge_finset, List.mem_toFinset]
    exact mem_edge_states.2 ⟨(q, tr), hqm, Or.inr ⟨e, he, hx2⟩⟩

theorem eps_step_subset_edge [DecidableEq Q] (nfa : NFA Q L)
    (Y : Finset Q) : nfa.eps_step Y ⊆ nfa.edge_finset := by
  intro x hx
  simp only [NFA.eps_step, Finset.mem_biUnion, List.mem_toFinset] at hx
  obtain ⟨q, _, hx⟩ := hx
  exact eps_targets_subset_edge nfa q hx

theorem eps_step_mono [DecidableEq Q] (nfa : NFA Q L) (A B : Finset Q)
    (h : A ⊆ B) : nfa.eps_step A ⊆ nfa.eps_step B :=
  Finset.biUnion_subset_biUnion_of_subset_left _ h

theorem subset_eps_closure [DecidableEq Q] (nfa : NFA Q L) (S : Finset Q) :
    S ⊆ nfa.eps_closure S :=
  saturate_subset _ _ _

theorem eps_closure_closed [DecidableEq Q] (nfa : NFA Q L) (S : Finset Q) :
    nfa.eps_step (nfa.eps_closure S) ⊆ nfa.eps_closure S :=
  saturate_closed _ nfa.edge_finset (eps_step_subset_edge nfa) _ _
    (by omega)

theorem eps_closure_min [DecidableEq Q] (nfa : NFA Q L) (S Y : Finset Q)
    (hSY : S ⊆ Y) (hY : nfa.eps_step Y ⊆ Y) : nfa.eps_closure S ⊆ Y :=
  saturate_min _ (eps_step_mono nfa) _ _ _ hSY hY

/-- The ε-reachability relation: one ε-edge. -/
def epsRel [DecidableEq Q] (nfa : NFA Q L) : Q → Q → Prop :=
  fun p r => r ∈ nfa.eps_targets p

theorem mem_eps_closure [DecidableEq Q] {nfa : NFA Q L} {S : Finset Q}
    {x : Q} :
    x ∈ nfa.eps_closure S ↔
      ∃ s ∈ S, Relation.ReflTransGen (epsRel nfa) s x := by
  classical
  constructor
  · intro hx
    let Y : Finset Q := (S ∪ nfa.edge_finset).filter
      (fun y => ∃ s ∈ S, Relation.ReflTransGen (epsRel nfa) s y)
    have hSY : S ⊆ Y := by
      intro s hs
      exact Finset.mem_filter.2 ⟨Finset.mem_union_left _ hs,
        ⟨s, hs, Relation.ReflTransGen.refl⟩⟩
    have hY : nfa.eps_step Y ⊆ Y := by
      intro z hz
      simp only [NFA.eps_step, Finset.mem_biUnion, List.mem_toFinset] at hz
      obtain ⟨q, hq, hz⟩ := hz
      obtain ⟨-, s, hs, hrtg⟩ := Finset.mem_filter.1 hq
      exact Finset.mem_filter.2
        ⟨Finset.mem_union_right _ (eps_targets_subset_edge nfa q hz),
          ⟨s, hs, hrtg.tail hz⟩⟩
    have := eps_closure_min nfa S Y hSY hY hx
    exact (Finset.mem_filter.1 this).2
  · rintro ⟨s, hs, hrtg⟩
    induction hrtg with
    | refl => exact subset_eps_closure nfa S hs
    | tail h1 h2 ih =>
      apply eps_closure_closed nfa S
      simp only [NFA.eps_step, Finset.mem_biUnion, List.mem_toFinset]
      exact ⟨_, ih, h2⟩

/-- The targets reachable from `S` by one transition whose label range
contains the token (`next_state`'s collection phase). -/
def NFA.labeled_targets [DecidableEq Q] (memT : L → T → Bool)
    (nfa : NFA Q L) (S : Finset Q) (t : T) : Finset Q :=
  S.biUnion (fun q => ((nfa.trans_of q).flatMap (fun e =>
    match e.1 with
    | some l => if memT l t then e.2 else []
    | none => [])).toFinset)

/-- `Automaton::initial_state` for the NFA: the ε-closure of the initial
set; `None` when empty. -/
def NFA.initial_state [DecidableEq Q] (nfa : NFA Q L) : Option (Finset Q) :=
  let S := nfa.eps_closure nfa.initial_states.toFinset
  if S.Nonempty then some S else none

/-- `Automaton::next_state` for the NFA: labeled targets, then ε-closure;
`None` when empty. -/
def NFA.next_state [DecidableEq Q] (memT : L → T → Bool) (nfa : NFA Q L)
    (S : Finset Q) (t : T) : Option (Finset Q) :=
  let N := nfa.eps_closure (nfa.labeled_targets memT S t)
  if N.Nonempty then some N else none

/-- `Automaton::is_final_state` for the NFA: some visited state is final. -/
def NFA.is_final_visiting [DecidableEq Q] (nfa : NFA Q L) (S : Finset Q) :
    Bool :=
  decide (∃ q ∈ S, q ∈ nfa.final_states)

/-- The token loop of `Automaton::contains`, from a visiting state. -/
def NFA.contains_from [DecidableEq Q] (memT : L → T → Bool) (nfa : NFA Q L)
    (S : Finset Q) : List T → Bool
  | [] => nfa.is_final_visiting S
  | t :: w =>
      match nfa.next_state memT S t with
      | some S' => nfa.contains_from memT S' w
      | none => false

/-- `Automaton::contains` (`crates/automata/src/lib.rs`). -/
def NFA.contains [DecidableEq Q] (memT : L → T → Bool) (nfa : NFA Q L)
    (w : List T) : Bool :=
  match nfa.initial_state with
  | some S => nfa.contains_from memT S w
  | none => false

/-- The DFS loop of `NFA::recognizes_empty`: pop a state; if unvisited and
final return true, else push its ε-successors.  `Vec` pushes/pops at the
end, so successors are explored LIFO; `fuel` bounds the loop, which
terminates because `visited` grows. -/
def NFA.rec_empty_loop [DecidableEq Q] (nfa : NFA Q L) :
    Nat → List Q → Finset Q → Bool
  | 0, _, _ => false
  | _ + 1, [], _ => false
  | fuel + 1, q :: stack, visited =>
      if q ∈ visited then nfa.rec_empty_loop fuel stack visited
      else if nfa.is_final_state q then true
      else nfa.rec_empty_loop fuel ((nfa.eps_targets q).reverse ++ stack)
        (insert q visited)

/-- `NFA::recognizes_empty`: ε-DFS from the initial states looking for a
final state. -/
def NFA.recognizes_empty [DecidableEq Q] (nfa : NFA Q L) : Bool :=
  nfa.rec_empty_loop
    ((nfa.initial_states.length + nfa.edge_states.length + 1) *
      (nfa.initial_states.length + nfa.edge_states.length + 1))
    nfa.initial_states ∅

theorem rec_empty_loop_false_of_no_finals [DecidableEq Q] (nfa : NFA Q L)
    (hf : nfa.final_states = []) (fuel : Nat) :
    ∀ stack visited, nfa.rec_empty_loop fuel stack visited = false := by
  induction fuel with
  | zero => intro stack visited; rfl
  | succ fuel ih =>
    intro stack visited
    match stack with
    | [] => rfl
    | q :: stack' =>
      rw [NFA.rec_empty_loop]
      split
      · exact ih _ _
      · rw [if_neg (by simp [NFA.is_final_state, hf])]
        exact ih _ _

theorem contains_from_false_of_no_finals [DecidableEq Q]
    (memT : L → T → Bool) (nfa : NFA Q L) (hf : nfa.final_states = []) :
    ∀ (w : List T) (S : Finset Q), nfa.contains_from memT S w = false := by
  intro w
  induction w with
  | nil =>
    intro S
    simp [NFA.contains_from, NFA.is_final_visiting, hf]
  | cons t w ih =>
    intro S
    rw [NFA.contains_from]
    split
    · exact ih _
    · rfl

/-! ## C10: the zero-branch alternation accepts nothing -/

/-- Building from a zero-branch `Alternation` allocates one state and
returns an empty exit map. -/
theorem build_alternation_nil_eval {L : Type} [DecidableEq L]
    (sb : U32StateBuilder Unit) (hroom : (sb.states.length + 1) % 2 ^ 32 ≤ sb.limit)
    (nfa : NFA Nat L) (tags : Tags Nat CaptureTag) :
    build_alternation ([] : Alternation L) (sb, nfa, tags) =
      Except.ok ((⟨sb.states ++ [()], sb.limit⟩,
        nfa.add_state (sb.states.length % 2 ^ 32), tags),
        sb.states.length % 2 ^ 32, none) := by
  rw [build_alternation]
  simp only [bnext, U32StateBuilder.next_state, List.length_append,
    List.length_singleton]
  rw [if_neg (by simpa using Nat.not_lt.2 hroom)]
  rfl

/-- C10: building from an `Alternation` with zero branches returns a fresh
entry state and an empty exit map; the `build_nfa` wrapper therefore
produces an automaton with one initial state, no final states, and a
single (empty) transition entry.  It accepts no word, and
`recognizes_empty()` is `false`. -/
theorem c10_zero_branch_alternation {L T : Type} [DecidableEq L]
    (memT : L → T → Bool) (sb : U32StateBuilder Unit)
    (hroom : (sb.states.length + 1) % 2 ^ 32 ≤ sb.limit) :
    build_alternation ([] : Alternation L)
        (sb, NFA.new Nat L, Tags.new Nat CaptureTag) =
      Except.ok ((⟨sb.states ++ [()], sb.limit⟩,
        (NFA.new Nat L).add_state (sb.states.length % 2 ^ 32),
        Tags.new Nat CaptureTag), sb.states.length % 2 ^ 32, none) ∧
    build_nfa_with (build_alternation ([] : Alternation L)) sb =
      Except.ok (⟨sb.states ++ [()], sb.limit⟩,
        ⟨⟨[(sb.states.length % 2 ^ 32, [])],
          [sb.states.length % 2 ^ 32], []⟩, Tags.new Nat CaptureTag⟩) ∧
    (∀ w : List T,
      NFA.contains memT
        (⟨[(sb.states.length % 2 ^ 32, [])],
          [sb.states.length % 2 ^ 32], []⟩ : NFA Nat L) w = false) ∧
    NFA.recognizes_empty
      (⟨[(sb.states.length % 2 ^ 32, [])],
        [sb.states.length % 2 ^ 32], []⟩ : NFA Nat L) = false := by
  have hbuild := build_alternation_nil_eval sb hroom (NFA.new Nat L)
    (Tags.new Nat CaptureTag)
  refine ⟨hbuild, ?_, ?_, ?_⟩
  · rw [build_nfa_with, hbuild]
    simp only [exc_bind_ok]
    simp only [NFA.new, NFA.add_state, NFA.add_initial_state, updateA, insertS]
    rfl
  · intro w
    rw [NFA.contains]
    split
    · exact contains_from_false_of_no_finals memT _ rfl w _
    · rfl
  · exact rec_empty_loop_false_of_no_finals _ rfl _ _ _

/-- Witness for C10 at a fresh default builder. -/
theorem c10_witness :
    (1 % 2 ^ 32 ≤ 2 ^ 32 - 1) ∧
      (NFA.recognizes_empty
        (⟨[(0 % 2 ^ 32, [])], [0 % 2 ^ 32], []⟩ : NFA Nat Unit) = false) :=
  ⟨by norm_num,
    (c10_zero_branch_alternation (T := Unit) (fun _ _ => true)
      (U32StateBuilder.default Unit) (by norm_num [U32StateBuilder.default])).2.2.2⟩

/-! ## The compound matcher (`src/compiled.rs`)

The matcher is generic over the `Automaton` trait; `AutomatonI` embeds
that interface (`initial_state` / `next_state` / `is_final_state`).
`CompoundA` embeds `CompoundAutomaton` with the `root`/`suffix` class maps
as functions to `Option` (`Map::get`).  `lenT` models `Token::len`,
`nextC` models `Class::next_class`.
-/

structure AutomatonI (σ T : Type) where
  initial : Option σ
  next : σ → T → Option σ
  final : σ → Bool

/-- `CompoundAutomaton`; `pre` is the source's `prefix` field. -/
structure CompoundA (σ T C : Type) where
  pre : AutomatonI σ T
  root : C → Option (AutomatonI σ T)
  suf : C → Option (AutomatonI σ T)

/-- The `for token in haystack` loop of `check_suffix`: feed every
remaining token to the automaton, `None` if it ever fails to step. -/
def run_all (aut : AutomatonI σ T) (s : σ) : List T → Option σ
  | [] => some s
  | t :: w =>
      match aut.next s t with
      | some s' => run_all aut s' w
      | none => none

/-- `Matches::check_suffix`: select the suffix automaton by the current
class and run it to exhaustion; true iff it consumes everything and ends
final. -/
def check_suffix (ca : CompoundA σ T C) (hay : List T) (cls : C) : Bool :=
  match ca.suf cls with
  | none => false
  | some sufA =>
      match sufA.initial with
      | some s0 =>
          match run_all sufA s0 hay with
          | some s => sufA.final s
          | none => false
      | none => false

/-- The main loop of `Matches::next_from_position`: at each step record
`end` as the candidate when the root is final and the suffix checks; stop
when the root cannot step or the haystack ends; return the last recorded
candidate. -/
def nfp_loop (ca : CompoundA σ T C) (lenT : T → Nat) (nextC : C → T → C)
    (root : AutomatonI σ T) (rs : σ) (hay : List T) (cls : C)
    (endPos : Nat) : Option Nat :=
  match hay with
  | [] =>
      if root.final rs = true ∧ check_suffix ca [] cls = true then
        some endPos
      else none
  | t :: rest =>
      match root.next rs t with
      | none =>
          if root.final rs = true ∧ check_suffix ca (t :: rest) cls = true then
            some endPos
          else none
      | some rs' =>
          match nfp_loop ca lenT nextC root rs' rest (nextC cls t)
              (endPos + lenT t) with
          | some e0 => some e0
          | none =>
              if root.final rs = true ∧
                  check_suffix ca (t :: rest) cls = true then
                some endPos
              else none

/-- `Matches::next_from_position`. -/
def next_from_position (ca : CompoundA σ T C) (lenT : T → Nat)
    (nextC : C → T → C) (hay : List T) (cls : C) (position : Nat) :
    Option Nat :=
  match ca.root cls with
  | none => none
  | some root =>
      match root.initial with
      | none => none
      | some rs => nfp_loop ca lenT nextC root rs hay cls position

/-- `Matches::next`, iterated to the end: the full yielded sequence.
After an emission the iterator returns; the following `next()` call
re-enters the loop at the same position with
`min = max(end, position + 1) > position`, so its emission check
`position >= min` necessarily fails and the loop falls through to
`haystack.next()`.  The embedding fuses that always-failing re-check into
the emission step, making the recursion structural on the haystack. -/
def matches_iter (ca : CompoundA σ T C) (lenT : T → Nat)
    (nextC : C → T → C) (s : σ) (hay : List T) (cls : C)
    (position min : Nat) : List (Nat × Nat) :=
  match (if min ≤ position ∧ ca.pre.final s = true then
      next_from_position ca lenT nextC hay cls position
    else none) with
  | some e =>
      (position, e) ::
        (match hay with
         | [] => []
         | t :: rest =>
             match ca.pre.next s t with
             | none => []
             | some s' =>
                 matches_iter ca lenT nextC s' rest (nextC cls t)
                   (position + lenT t) (max e (position + 1)))
  | none =>
      match hay with
      | [] => []
      | t :: rest =>
          match ca.pre.next s t with
          | none => []
          | some s' =>
              matches_iter ca lenT nextC s' rest (nextC cls t)
                (position + lenT t) min

/-- `CompoundAutomaton::matches(haystack).collect()`: the sequence of
ranges yielded by the `Matches` iterator (`defC` is `C::default()`). -/
def matches_list (ca : CompoundA σ T C) (lenT : T → Nat)
    (nextC : C → T → C) (defC : C) (hay : List T) : List (Nat × Nat) :=
  match ca.pre.initial with
  | none => []
  | some s => matches_iter ca lenT nextC s hay defC 0 0

/-! ## C1: ordering and longest-match properties of the matcher -/

/-- Byte offsets advance by `Token::len` (`end += token.len()`). -/
def sum_len (lenT : T → Nat) (l : List T) : Nat := (l.map lenT).sum

/-- The class after consuming a token sequence
(`class = class.next_class(&token)` folded). -/
def class_after (nextC : C → T → C) (cls : C) (l : List T) : C :=
  l.foldl nextC cls

theorem sum_len_nil (lenT : T → Nat) : sum_len lenT [] = 0 := rfl

theorem sum_len_cons (lenT : T → Nat) (t : T) (l : List T) :
    sum_len lenT (t :: l) = lenT t + sum_len lenT l := by
  simp [sum_len]

/-- An accepting end for the root/suffix pair at a given start: after `j`
tokens the root is in a final state, the suffix (selected by the
then-current class) accepts the rest, and the end offset is the start
plus the byte length of the consumed tokens. -/
def LoopEnd (ca : CompoundA σ T C) (lenT : T → Nat) (nextC : C → T → C)
    (root : AutomatonI σ T) (rs : σ) (hay : List T) (cls : C)
    (endPos e : Nat) : Prop :=
  ∃ j, j ≤ hay.length ∧
    (∃ s, run_all root rs (hay.take j) = some s ∧ root.final s = true) ∧
    check_suffix ca (hay.drop j) (class_after nextC cls (hay.take j)) = true ∧
    e = endPos + sum_len lenT (hay.take j)

theorem nfp_loop_sound (ca : CompoundA σ T C) (lenT : T → Nat)
    (nextC : C → T → C) (root : AutomatonI σ T) :
    ∀ (hay : List T) (rs : σ) (cls : C) (endPos e : Nat),
      nfp_loop ca lenT nextC root rs hay cls endPos = some e →
      LoopEnd ca lenT nextC root rs hay cls endPos e := by
  intro hay
  induction hay with
  | nil =>
    intro rs cls endPos e h
    rw [nfp_loop] at h
    split at h
    · rename_i hcond
      obtain rfl : endPos = e := Option.some.inj h
      refine ⟨0, by simp, ⟨rs, rfl, hcond.1⟩, ?_, ?_⟩
      · simpa [class_after] using hcond.2
      · simp [sum_len_nil]
    · cases h
  | cons t rest ih =>
    intro rs cls endPos e h
    rw [nfp_loop] at h
    rcases hnext : root.next rs t with _ | rs' <;> simp only [hnext] at h
    · split at h
      · rename_i hcond
        obtain rfl : endPos = e := Option.some.inj h
        refine ⟨0, by simp, ⟨rs, rfl, hcond.1⟩, ?_, ?_⟩
        · simpa [class_after] using hcond.2
        · simp [sum_len_nil]
      · cases h
    · rcases hrec : nfp_loop ca lenT nextC root rs' rest (nextC cls t)
          (endPos + lenT t) with _ | e0 <;> simp only [hrec] at h
      · split at h
        · rename_i hcond
          obtain rfl : endPos = e := Option.some.inj h
          refine ⟨0, by simp, ⟨rs, rfl, hcond.1⟩, ?_, ?_⟩
          · simpa [class_after] using hcond.2
          · simp [sum_len_nil]
        · cases h
      · obtain rfl : e0 = e := Option.some.inj h
        obtain ⟨j, hj, ⟨s, hrun, hfin⟩, hchk, hsum⟩ :=
          ih rs' (nextC cls t) (endPos + lenT t) e0 hrec
        refine ⟨j + 1, by simpa using Nat.succ_le_succ hj,
          ⟨s, ?_, hfin⟩, ?_, ?_⟩
        · rw [List.take_succ_cons, run_all, hnext]
          exact hrun
        · rw [List.take_succ_cons, List.drop_succ_cons]
          simpa [class_after] using hchk
        · rw [List.take_succ_cons, sum_len_cons]
          omega

theorem nfp_loop_complete (ca : CompoundA σ T C) (lenT : T → Nat)
    (nextC : C → T → C) (root : AutomatonI σ T) :
    ∀ (hay : List T) (rs : σ) (cls : C) (endPos e' : Nat),
      LoopEnd ca lenT nextC root rs hay cls endPos e' →
      ∃ e, e' ≤ e ∧ nfp_loop ca lenT nextC root rs hay cls endPos = some e := by
  intro hay
  induction hay with
  | nil =>
    rintro rs cls endPos e' ⟨j, hj, ⟨s, hrun, hfin⟩, hchk, hsum⟩
    have hj0 : j = 0 := by simpa using hj
    subst hj0
    obtain rfl : rs = s := Option.some.inj hrun
    refine ⟨endPos, by simp [sum_len_nil] at hsum; omega, ?_⟩
    rw [nfp_loop]
    rw [if_pos ⟨hfin, by simpa [class_after] using hchk⟩]
  | cons t rest ih =>
    rintro rs cls endPos e' ⟨j, hj, ⟨s, hrun, hfin⟩, hchk, hsum⟩
    rw [nfp_loop]
    cases j with
    | zero =>
      obtain rfl : rs = s := Option.some.inj hrun
      have hcond : root.final rs = true ∧
          check_suffix ca (t :: rest) cls = true :=
        ⟨hfin, by simpa [class_after] using hchk⟩
      have he' : e' = endPos := by
        simp [sum_len_nil] at hsum
        omega
      rcases hnext : root.next rs t with _ | rs'
      · exact ⟨endPos, by omega, by simp only [hnext]; rw [if_pos hcond]⟩
      · rcases hrec : nfp_loop ca lenT nextC root rs' rest (nextC cls t)
            (endPos + lenT t) with _ | e0
        · exact ⟨endPos, by omega, by simp only [hnext, hrec]; rw [if_pos hcond]⟩
        · refine ⟨e0, ?_, by simp only [hnext, hrec]⟩
          obtain ⟨j', _, _, _, hsum'⟩ :=
            nfp_loop_sound ca lenT nextC root rest rs' (nextC cls t)
              (endPos + lenT t) e0 hrec
          omega
    | succ j' =>
      rw [List.take_succ_cons, run_all] at hrun
      rcases hnext : root.next rs t with _ | rs'
      · rw [hnext] at hrun
        cases hrun
      · rw [hnext] at hrun
        have hle : LoopEnd ca lenT nextC root rs' rest (nextC cls t)
            (endPos + lenT t) e' := by
          refine ⟨j', by simpa using hj, ⟨s, hrun, hfin⟩, ?_, ?_⟩
          · rw [List.take_succ_cons, List.drop_succ_cons] at hchk
            simpa [class_after] using hchk
          · rw [List.take_succ_cons, sum_len_cons] at hsum
            omega
        obtain ⟨e, hee, hrec⟩ :=
          ih rs' (nextC cls t) (endPos + lenT t) e' hle
        exact ⟨e, hee, by simp only [hnext, hrec]⟩

/-- An accepting end at a given start offset: the root automaton (selected
by the class) reaches a final state after some tokens and the suffix
accepts the remainder. -/
def IsMatchEnd (ca : CompoundA σ T C) (lenT : T → Nat) (nextC : C → T → C)
    (hay : List T) (cls : C) (pos e : Nat) : Prop :=
  ∃ root, ca.root cls = some root ∧
    ∃ s0, root.initial = some s0 ∧
      LoopEnd ca lenT nextC root s0 hay cls pos e

/-- `next_from_position` returns an accepting end, and the largest one:
longest-match at the given start offset. -/
theorem nfp_longest (ca : CompoundA σ T C) (lenT : T → Nat)
    (nextC : C → T → C) (hay : List T) (cls : C) (pos e : Nat)
    (h : next_from_position ca lenT nextC hay cls pos = some e) :
    IsMatchEnd ca lenT nextC hay cls pos e ∧
      ∀ e', IsMatchEnd ca lenT nextC hay cls pos e' → e' ≤ e := by
  rw [next_from_position] at h
  rcases hroot : ca.root cls with _ | root <;> simp only [hroot] at h
  · cases h
  · rcases hin : root.initial with _ | s0 <;> simp only [hin] at h
    · cases h
    · constructor
      · exact ⟨root, hroot, s0, hin,
          nfp_loop_sound ca lenT nextC root hay s0 cls pos e h⟩
      · rintro e' ⟨root', hroot', s0', hin', hle⟩
        obtain rfl : root = root' := by
          rw [hroot] at hroot'
          exact Option.some.inj hroot'
        obtain rfl : s0 = s0' := by
          rw [hin] at hin'
          exact Option.some.inj hin'
        obtain ⟨e2, he2, hsome⟩ :=
          nfp_loop_complete ca lenT nextC root hay s0 cls pos e' hle
        rw [h] at hsome
        obtain rfl : e2 = e := Option.some.inj hsome.symm
        exact he2

/-- Every match emitted by the iterator from a given state starts no
earlier than `min` and than `position`, at a token boundary `k` of the
remaining haystack, and its end is the value of `next_from_position`
there. -/
theorem matches_iter_mem (ca : CompoundA σ T C) (lenT : T → Nat)
    (nextC : C → T → C) (hay : List T) :
    ∀ (s : σ) (cls : C) (position min : Nat),
      ∀ m ∈ matches_iter ca lenT nextC s hay cls position min,
        min ≤ m.1 ∧ position ≤ m.1 ∧
          ∃ k, k ≤ hay.length ∧
            m.1 = position + sum_len lenT (hay.take k) ∧
            next_from_position ca lenT nextC (hay.drop k)
              (class_after nextC cls (hay.take k)) m.1 = some m.2 := by
  induction hay with
  | nil =>
    intro s cls position min m hm
    rw [matches_iter] at hm
    split at hm
    · rename_i e hemit
      have hc : min ≤ position ∧ ca.pre.final s = true := by
        by_contra hc
        rw [if_neg hc] at hemit
        cases hemit
      have hnfp := hemit
      rw [if_pos hc] at hnfp
      rcases List.mem_cons.1 hm with rfl | hm
      · refine ⟨hc.1, le_refl _, 0, by simp, by simp [sum_len_nil], ?_⟩
        simpa [class_after] using hnfp
      · cases hm
    · cases hm
  | cons t rest ih =>
    intro s cls position min m hm
    rw [matches_iter] at hm
    split at hm
    · rename_i e hemit
      have hc : min ≤ position ∧ ca.pre.final s = true := by
        by_contra hc
        rw [if_neg hc] at hemit
        cases hemit
      have hnfp := hemit
      rw [if_pos hc] at hnfp
      rcases List.mem_cons.1 hm with rfl | hm
      · refine ⟨hc.1, le_refl _, 0, by simp, by simp [sum_len_nil], ?_⟩
        simpa [class_after] using hnfp
      · rcases hnext : ca.pre.next s t with _ | s'
        · rw [hnext] at hm
          cases hm
        · rw [hnext] at hm
          obtain ⟨h1, h2, k, hk, hsum, hnfp'⟩ := ih s' (nextC cls t)
            (position + lenT t) (max e (position + 1)) m hm
          refine ⟨by omega, by omega, k + 1,
            by simpa using Nat.succ_le_succ hk, ?_, ?_⟩
          · rw [List.take_succ_cons, sum_len_cons]
            omega
          · rw [List.take_succ_cons, List.drop_succ_cons]
            simpa [class_after] using hnfp'
    · rcases hnext : ca.pre.next s t with _ | s'
      · rw [hnext] at hm
        cases hm
      · rw [hnext] at hm
        obtain ⟨h1, h2, k, hk, hsum, hnfp'⟩ := ih s' (nextC cls t)
          (position + lenT t) min m hm
        refine ⟨h1, by omega, k + 1,
          by simpa using Nat.succ_le_succ hk, ?_, ?_⟩
        · rw [List.take_succ_cons, sum_len_cons]
          omega
        · rw [List.take_succ_cons, List.drop_succ_cons]
          simpa [class_after] using hnfp'

/-- Consecutive emitted matches satisfy
`start' ≥ max(end, start + 1)`: ascending starts with forced progress. -/
theorem matches_iter_chain (ca : CompoundA σ T C) (lenT : T → Nat)
    (nextC : C → T → C) (hay : List T) :
    ∀ (s : σ) (cls : C) (position min : Nat),
      List.Chain' (fun m m' : Nat × Nat => max m.2 (m.1 + 1) ≤ m'.1)
        (matches_iter ca lenT nextC s hay cls position min) := by
  induction hay with
  | nil =>
    intro s cls position min
    rw [matches_iter]
    split
    · simp
    · exact List.chain'_nil
  | cons t rest ih =>
    intro s cls position min
    rw [matches_iter]
    split
    · rename_i e hemit
      refine List.chain'_cons'.2 ⟨?_, ?_⟩
      · intro y hy
        rcases hnext : ca.pre.next s t with _ | s'
        · rw [hnext] at hy
          cases hy
        · rw [hnext] at hy
          have hmem := matches_iter_mem ca lenT nextC rest s' (nextC cls t)
            (position + lenT t) (max e (position + 1)) y
            (List.mem_of_mem_head? hy)
          simp only [ge_iff_le]
          omega
      · rcases hnext : ca.pre.next s t with _ | s'
        · simp only [hnext]
          exact List.chain'_nil
        · simp only [hnext]
          exact ih s' (nextC cls t) (position + lenT t) (max e (position + 1))
    · rcases hnext : ca.pre.next s t with _ | s'
      · simp only [hnext]
        exact List.chain'_nil
      · simp only [hnext]
        exact ih s' (nextC cls t) (position + lenT t) min

/-- C1: the `Matches` iterator yields ranges in ascending start offset
(consecutive matches satisfy `start' ≥ max(end, start + 1)`, so two
emitted matches never overlap and zero-width matches force progress), and
each emitted range starts at a token boundary of the haystack with the
largest accepting end at that start offset (longest match). -/
theorem c1_matches_ordered_longest (ca : CompoundA σ T C) (lenT : T → Nat)
    (nextC : C → T → C) (defC : C) (hay : List T) :
    List.Chain' (fun m m' : Nat × Nat => max m.2 (m.1 + 1) ≤ m'.1)
      (matches_list ca lenT nextC defC hay) ∧
      ∀ m ∈ matches_list ca lenT nextC defC hay,
        ∃ k, k ≤ hay.length ∧ m.1 = sum_len lenT (hay.take k) ∧
          IsMatchEnd ca lenT nextC (hay.drop k)
            (class_after nextC defC (hay.take k)) m.1 m.2 ∧
          ∀ e', IsMatchEnd ca lenT nextC (hay.drop k)
              (class_after nextC defC (hay.take k)) m.1 e' → e' ≤ m.2 := by
  rw [matches_list]
  rcases hin : ca.pre.initial with _ | s
  · exact ⟨List.chain'_nil, fun m hm => absurd hm (List.not_mem_nil m)⟩
  · constructor
    · exact matches_iter_chain ca lenT nextC hay s defC 0 0
    · intro m hm
      obtain ⟨-, -, k, hk, hsum, hnfp⟩ :=
        matches_iter_mem ca lenT nextC hay s defC 0 0 m hm
      obtain ⟨hme, hmax⟩ := nfp_longest ca lenT nextC (hay.drop k)
        (class_after nextC defC (hay.take k)) m.1 m.2 hnfp
      exact ⟨k, hk, by omega, hme, hmax⟩

/-! ## C6: matching with `Any` affixes

The compiled `CompoundAutomaton<TaggedNFA<..>, ()>` is matched through the
`Automaton` impl of the (tagged) NFA: visiting-subset stepping with
ε-closure. -/

/-- The `Automaton` impl of `NFA` (and `TaggedNFA`, which delegates),
packaged as an `AutomatonI` for the matcher. -/
def NFA.toAutomatonI [DecidableEq Q] (memT : L → T → Bool) (nfa : NFA Q L) :
    AutomatonI (Finset Q) T :=
  ⟨nfa.initial_state, fun S t => nfa.next_state memT S t,
    fun S => nfa.is_final_visiting S⟩

/-- View a compiled `CompoundNFA` as a matcher automaton triple (the
`root`/`suffix` maps are `Unmapped`: the same automaton for the single
class). -/
def CompoundNFA.toMatcher [DecidableEq L] (cn : CompoundNFA L)
    (memT : L → T → Bool) : CompoundA (Finset Nat) T Unit :=
  ⟨cn.pre.untagged.toAutomatonI memT,
    fun _ => cn.root.map (fun r => NFA.toAutomatonI memT r.untagged),
    fun _ => cn.suf.map (fun r => NFA.toAutomatonI memT r.untagged)⟩

/-! ### Concrete compilation of the `Any`/`Any` unanchored regexes

`LAny` is the label alphabet with the single value `T::all()`; its token
semantics (`RangeSet::contains`) is `fun _ _ => true`, since `T::all()`
contains every token. -/

inductive LAny where
  | all
deriving DecidableEq

/-- `IRegEx::unanchored` with a zero-branch root alternation. -/
def c6_ir_empty : IRegEx LAny := IRegEx.unanchored []

/-- `IRegEx::unanchored` with a root alternation of one empty
concatenation. -/
def c6_ir_eps : IRegEx LAny := IRegEx.unanchored [[]]

/-- The prefix automaton compiled from `Affix::Any`: a Kleene loop state 0
with the token transition 1 → 2 over `T::all()`. -/
def c6_pre_nfa : NFA Nat LAny :=
  ⟨[(0, [(none, [0, 1])]), (1, [(some LAny.all, [2])]), (2, [(none, [0])])],
    [0], [0]⟩

/-- The suffix automaton compiled from `Affix::Any` (states 4–6). -/
def c6_suf_nfa : NFA Nat LAny :=
  ⟨[(4, [(none, [4, 5])]), (5, [(some LAny.all, [6])]), (6, [(none, [4])])],
    [4], [4]⟩

/-- `compile` result for the zero-branch root: the root automaton has no
final state, so no suffix automaton is ever built. -/
def c6_compiled_empty : CompoundNFA LAny :=
  ⟨⟨c6_pre_nfa, ⟨[]⟩⟩, some ⟨⟨[(3, [])], [3], []⟩, ⟨[]⟩⟩, none⟩

/-- `compile` result for the single-empty-concatenation root. -/
def c6_compiled_eps : CompoundNFA LAny :=
  ⟨⟨c6_pre_nfa, ⟨[]⟩⟩, some ⟨⟨[(3, [])], [3], [3]⟩, ⟨[]⟩⟩,
    some ⟨c6_suf_nfa, ⟨[]⟩⟩⟩

theorem c6_inner_alt :
    build_alternation [[Atom.token LAny.all]]
      ((⟨[()], 4294967295⟩ : U32StateBuilder Unit),
        (⟨[(0, [(none, [0])])], [], []⟩ : NFA Nat LAny),
        (⟨[]⟩ : Tags Nat CaptureTag)) =
    Except.ok ((⟨[(), (), ()], 4294967295⟩,
      ⟨[(0, [(none, [0])]), (1, [(some LAny.all, [2])]), (2, [])], [], []⟩,
      (⟨[]⟩ : Tags Nat CaptureTag)), 1, some 2) := by
  rw [build_alternation, build_concatenation, build_atom]
  simp only [bnext, badd, U32StateBuilder.next_state, NFA.add_state, NFA.add,
    updateA, insertS, exc_bind_ok, exc_bind_error]
  norm_num
  rfl

theorem c6_inner_alt_4 :
    build_alternation [[Atom.token LAny.all]]
      ((⟨[(), (), (), (), ()], 4294967295⟩ : U32StateBuilder Unit),
        (⟨[(4, [(none, [4])])], [], []⟩ : NFA Nat LAny),
        (⟨[]⟩ : Tags Nat CaptureTag)) =
    Except.ok ((⟨[(), (), (), (), (), (), ()], 4294967295⟩,
      ⟨[(4, [(none, [4])]), (5, [(some LAny.all, [6])]), (6, [])], [], []⟩,
      (⟨[]⟩ : Tags Nat CaptureTag)), 5, some 6) := by
  rw [build_alternation, build_concatenation, build_atom]
  simp only [bnext, badd, U32StateBuilder.next_state, NFA.add_state, NFA.add,
    updateA, insertS, exc_bind_ok, exc_bind_error]
  norm_num
  rfl

set_option maxRecDepth 8000 in
theorem c6_pre_eval :
    build_nfa_with (build_affix Affix.any LAny.all)
      (U32StateBuilder.default Unit) =
    Except.ok (⟨[(), (), ()], 2 ^ 32 - 1⟩, ⟨c6_pre_nfa, ⟨[]⟩⟩) := by
  rw [build_nfa_with, build_affix, build_alternation, build_concatenation,
    build_atom, build_repeat]
  norm_num [Repeat.star, Repeat.is_zero, Repeat.is_one]
  simp only [Repeat.star]
  rw [build_kleene]
  simp only [bnext, badd, U32StateBuilder.next_state, U32StateBuilder.default,
    NFA.new, NFA.add_state, NFA.add, Tags.new, updateA, insertS,
    exc_bind_ok, exc_bind_error]
  norm_num
  simp only [exc_bind_ok]
  simp only [updateA, insertS]
  norm_num
  rw [c6_inner_alt]
  simp only [exc_bind_ok, exc_map_ok]
  norm_num
  simp only [build_kleene]
  simp only [exc_bind_ok, exc_map_ok, badd, NFA.add, NFA.add_state,
    NFA.add_initial_state, NFA.add_final_state, updateA, insertS]
  norm_num
  rfl

set_option maxRecDepth 8000 in
theorem c6_suf_eval :
    build_nfa_with (build_affix Affix.any LAny.all)
      (⟨[(), (), (), ()], 4294967295⟩ : U32StateBuilder Unit) =
    Except.ok (⟨[(), (), (), (), (), (), ()], 4294967295⟩,
      ⟨c6_suf_nfa, ⟨[]⟩⟩) := by
  rw [build_nfa_with, build_affix, build_alternation, build_concatenation,
    build_atom, build_repeat]
  norm_num [Repeat.star, Repeat.is_zero, Repeat.is_one]
  simp only [Repeat.star]
  rw [build_kleene]
  simp only [bnext, badd, U32StateBuilder.next_state, U32StateBuilder.default,
    NFA.new, NFA.add_state, NFA.add, Tags.new, updateA, insertS,
    exc_bind_ok, exc_bind_error]
  norm_num
  simp only [exc_bind_ok]
  simp only [updateA, insertS]
  norm_num
  rw [c6_inner_alt_4]
  simp only [exc_bind_ok, exc_map_ok]
  norm_num
  simp only [build_kleene]
  simp only [exc_bind_ok, exc_map_ok, badd, NFA.add, NFA.add_state,
    NFA.add_initial_state, NFA.add_final_state, updateA, insertS]
  norm_num
  rfl

theorem c6_compile_empty :
    compile c6_ir_empty LAny.all (U32StateBuilder.default Unit) =
      Except.ok c6_compiled_empty := by
  rw [compile]
  rw [show c6_ir_empty.pre = Affix.any from rfl]
  rw [c6_pre_eval]
  simp only [exc_bind_ok]
  rw [show c6_ir_empty.root = ([] : Alternation LAny) from rfl]
  rw [show (⟨c6_pre_nfa, ⟨[]⟩⟩ :
    TaggedNFA Nat LAny CaptureTag).untagged.final_states.isEmpty = false from rfl]
  simp only [Bool.false_eq_true, if_false]
  rw [build_nfa_with]
  rw [build_alternation_nil_eval _ (by norm_num) _ _]
  simp only [exc_bind_ok]
  norm_num
  rfl

theorem c6_compile_eps :
    compile c6_ir_eps LAny.all (U32StateBuilder.default Unit) =
      Except.ok c6_compiled_eps := by
  rw [compile]
  rw [show c6_ir_eps.pre = Affix.any from rfl]
  rw [c6_pre_eval]
  simp only [exc_bind_ok]
  rw [show c6_ir_eps.root = ([[]] : Alternation LAny) from rfl]
  rw [show (⟨c6_pre_nfa, ⟨[]⟩⟩ :
    TaggedNFA Nat LAny CaptureTag).untagged.final_states.isEmpty = false from rfl]
  simp only [Bool.false_eq_true, if_false]
  rw [build_nfa_with, build_alternation, build_concatenation]
  simp only [bnext, badd, U32StateBuilder.next_state, NFA.new, NFA.add_state,
    NFA.add, NFA.add_initial_state, NFA.add_final_state, Tags.new, updateA,
    insertS, exc_bind_ok, exc_bind_error]
  norm_num
  rw [show c6_ir_eps.suf = Affix.any from rfl]
  simp only [exc_bind_ok]
  rw [if_neg (by simp)]
  rw [c6_suf_eval]
  simp only [exc_bind_ok, exc_map_ok]
  rfl


/-! ### C6: matcher runs of the two compiled automata -/

/-- Token targets when every label matches the token (`T::all()` semantics):
`labeled_targets` with the constantly-true label test. -/
def NFA.all_targets [DecidableEq Q] (nfa : NFA Q L) (S : Finset Q) :
    Finset Q :=
  S.biUnion (fun q => ((nfa.trans_of q).flatMap (fun e =>
    match e.1 with
    | some _ => e.2
    | none => [])).toFinset)

theorem labeled_targets_true [DecidableEq Q] (nfa : NFA Q L) (S : Finset Q)
    (t : T) :
    NFA.labeled_targets (fun _ _ => true) nfa S t = nfa.all_targets S := by
  unfold NFA.labeled_targets NFA.all_targets
  refine Finset.biUnion_congr rfl (fun q _ => ?_)
  congr 1

theorem next_state_true_some [DecidableEq Q] (nfa : NFA Q L) (S N : Finset Q)
    (t : T) (h : nfa.eps_closure (nfa.all_targets S) = N) (hne : N.Nonempty) :
    NFA.next_state (fun _ _ => true) nfa S t = some N := by
  simp only [NFA.next_state, labeled_targets_true, h]
  exact if_pos hne

theorem next_state_true_none [DecidableEq Q] (nfa : NFA Q L) (S : Finset Q)
    (t : T) (h : nfa.eps_closure (nfa.all_targets S) = ∅) :
    NFA.next_state (fun _ _ => true) nfa S t = none := by
  simp only [NFA.next_state, labeled_targets_true, h]
  exact if_neg Finset.not_nonempty_empty

theorem initial_state_eq [DecidableEq Q] (nfa : NFA Q L) (N : Finset Q)
    (h : nfa.eps_closure nfa.initial_states.toFinset = N) (hne : N.Nonempty) :
    nfa.initial_state = some N := by
  simp only [NFA.initial_state, h]
  exact if_pos hne

/-- The prefix automaton of the compiled matchers, as a stepping triple. -/
def c6_preA (T : Type) : AutomatonI (Finset Nat) T :=
  NFA.toAutomatonI (fun _ _ => true) c6_pre_nfa

/-- The root automaton compiled from the one-empty-branch alternation. -/
def c6_rootA (T : Type) : AutomatonI (Finset Nat) T :=
  NFA.toAutomatonI (fun _ _ => true) (⟨[(3, [])], [3], [3]⟩ : NFA Nat LAny)

/-- The suffix automaton of the compiled `eps` matcher. -/
def c6_sufA (T : Type) : AutomatonI (Finset Nat) T :=
  NFA.toAutomatonI (fun _ _ => true) c6_suf_nfa

/-- The matcher of the compiled one-empty-branch regex. -/
def c6_ca (T : Type) : CompoundA (Finset Nat) T Unit :=
  CompoundNFA.toMatcher c6_compiled_eps (fun _ _ => true)

theorem c6_ca_pre (T : Type) : (c6_ca T).pre = c6_preA T := rfl

theorem c6_ca_root (T : Type) : (c6_ca T).root () = some (c6_rootA T) := rfl

theorem c6_ca_suf (T : Type) : (c6_ca T).suf () = some (c6_sufA T) := rfl

theorem c6_pre_initial (T : Type) :
    (c6_preA T).initial = some ({0, 1} : Finset Nat) := by
  simp only [c6_preA, NFA.toAutomatonI]
  exact initial_state_eq _ _ (by decide) (Finset.insert_nonempty _ _)

theorem c6_pre_next1 {T : Type} (t : T) :
    (c6_preA T).next {0, 1} t = some ({0, 1, 2} : Finset Nat) := by
  simp only [c6_preA, NFA.toAutomatonI]
  exact next_state_true_some _ _ _ t (by decide) (Finset.insert_nonempty _ _)

theorem c6_pre_next2 {T : Type} (t : T) :
    (c6_preA T).next {0, 1, 2} t = some ({0, 1, 2} : Finset Nat) := by
  simp only [c6_preA, NFA.toAutomatonI]
  exact next_state_true_some _ _ _ t (by decide) (Finset.insert_nonempty _ _)

theorem c6_pre_final1 (T : Type) :
    (c6_preA T).final {0, 1} = true := by
  simp only [c6_preA, NFA.toAutomatonI]
  decide

theorem c6_pre_final2 (T : Type) :
    (c6_preA T).final {0, 1, 2} = true := by
  simp only [c6_preA, NFA.toAutomatonI]
  decide

theorem c6_root_initial (T : Type) :
    (c6_rootA T).initial = some ({3} : Finset Nat) := by
  simp only [c6_rootA, NFA.toAutomatonI]
  exact initial_state_eq _ _ (by decide) (Finset.singleton_nonempty _)

theorem c6_root_final (T : Type) :
    (c6_rootA T).final {3} = true := by
  simp only [c6_rootA, NFA.toAutomatonI]
  decide

theorem c6_root_next {T : Type} (t : T) :
    (c6_rootA T).next {3} t = none := by
  simp only [c6_rootA, NFA.toAutomatonI]
  exact next_state_true_none _ _ t (by decide)

theorem c6_suf_initial (T : Type) :
    (c6_sufA T).initial = some ({4, 5} : Finset Nat) := by
  simp only [c6_sufA, NFA.toAutomatonI]
  exact initial_state_eq _ _ (by decide) (Finset.insert_nonempty _ _)

theorem c6_suf_next1 {T : Type} (t : T) :
    (c6_sufA T).next {4, 5} t = some ({4, 5, 6} : Finset Nat) := by
  simp only [c6_sufA, NFA.toAutomatonI]
  exact next_state_true_some _ _ _ t (by decide) (Finset.insert_nonempty _ _)

theorem c6_suf_next2 {T : Type} (t : T) :
    (c6_sufA T).next {4, 5, 6} t = some ({4, 5, 6} : Finset Nat) := by
  simp only [c6_sufA, NFA.toAutomatonI]
  exact next_state_true_some _ _ _ t (by decide) (Finset.insert_nonempty _ _)

theorem c6_suf_final1 (T : Type) :
    (c6_sufA T).final {4, 5} = true := by
  simp only [c6_sufA, NFA.toAutomatonI]
  decide

theorem c6_suf_final2 (T : Type) :
    (c6_sufA T).final {4, 5, 6} = true := by
  simp only [c6_sufA, NFA.toAutomatonI]
  decide

/-- The suffix automaton never dies: it steps within `{4,5}`/`{4,5,6}`. -/
theorem c6_suf_run {T : Type} (hay : List T) :
    ∀ S : Finset Nat, S = {4, 5} ∨ S = {4, 5, 6} →
      ∃ S2, run_all (c6_sufA T) S hay = some S2 ∧
        (S2 = {4, 5} ∨ S2 = {4, 5, 6}) := by
  induction hay with
  | nil => exact fun S hS => ⟨S, rfl, hS⟩
  | cons t rest ih =>
      intro S hS
      have hnext : (c6_sufA T).next S t = some {4, 5, 6} := by
        rcases hS with h | h <;> subst h
        · exact c6_suf_next1 t
        · exact c6_suf_next2 t
      rw [run_all, hnext]
      exact ih {4, 5, 6} (Or.inr rfl)

/-- `check_suffix` of the `eps` matcher succeeds on every remaining
haystack. -/
theorem c6_check_suffix {T : Type} (hay : List T) :
    check_suffix (c6_ca T) hay () = true := by
  obtain ⟨S2, hrun, hS2⟩ := c6_suf_run hay {4, 5} (Or.inl rfl)
  rw [check_suffix]
  simp only [c6_ca_suf, c6_suf_initial, hrun]
  rcases hS2 with h | h <;> subst h
  · exact c6_suf_final1 T
  · exact c6_suf_final2 T

/-- `next_from_position` of the `eps` matcher returns the start position
itself: the root accepts exactly the empty token sequence and the suffix
always checks. -/
theorem c6_nfp {T : Type} (lenT : T → Nat) (hay : List T) (pos : Nat) :
    next_from_position (c6_ca T) lenT (fun c _ => c) hay () pos =
      some pos := by
  rw [next_from_position]
  simp only [c6_ca_root, c6_root_initial]
  cases hay with
  | nil =>
      rw [nfp_loop]
      rw [if_pos ⟨c6_root_final T, c6_check_suffix []⟩]
  | cons t rest =>
      rw [nfp_loop]
      simp only [c6_root_next t]
      rw [if_pos ⟨c6_root_final T, c6_check_suffix (t :: rest)⟩]

/-- The token-boundary byte offsets of a haystack starting at `pos`
(`pos, pos + len t1, pos + len t1 + len t2, …`). -/
def boundary_offsets (lenT : T → Nat) : List T → Nat → List Nat
  | [], pos => [pos]
  | t :: rest, pos => pos :: boundary_offsets lenT rest (pos + lenT t)

/-- The full iterator run of the `eps` matcher: one zero-width match at
every token boundary at or after the current position. -/
theorem c6_matches_iter_eval {T : Type} (lenT : T → Nat)
    (hlen : ∀ t, 1 ≤ lenT t) (hay : List T) :
    ∀ (S : Finset Nat) (pos min : Nat),
      (S = {0, 1} ∨ S = {0, 1, 2}) → min ≤ pos →
      matches_iter (c6_ca T) lenT (fun c _ => c) S hay () pos min =
        (boundary_offsets lenT hay pos).map (fun p => (p, p)) := by
  induction hay with
  | nil =>
      intro S pos min hS hmin
      have hfin : (c6_ca T).pre.final S = true := by
        rcases hS with h | h <;> subst h
        · exact c6_pre_final1 T
        · exact c6_pre_final2 T
      rw [matches_iter]
      rw [if_pos ⟨hmin, hfin⟩]
      rw [c6_nfp]
      simp [boundary_offsets]
  | cons t rest ih =>
      intro S pos min hS hmin
      have hfin : (c6_ca T).pre.final S = true := by
        rcases hS with h | h <;> subst h
        · exact c6_pre_final1 T
        · exact c6_pre_final2 T
      have hnext : (c6_ca T).pre.next S t = some {0, 1, 2} := by
        rcases hS with h | h <;> subst h
        · exact c6_pre_next1 t
        · exact c6_pre_next2 t
      rw [matches_iter]
      rw [if_pos ⟨hmin, hfin⟩]
      simp only [c6_nfp, hnext]
      rw [ih {0, 1, 2} (pos + lenT t) (max pos (pos + 1)) (Or.inr rfl)
        (by have := hlen t; omega)]
      simp [boundary_offsets]


/-- C6, counterexample to the claim as stated: the zero-branch root
alternation compiles to a root automaton with no final state (no branch
ever reaches the exit), so `next_from_position` never finds an accepting
end and the matcher yields no match at all — on the one-token haystack
`[0]` the claim demands zero-width matches at offsets 0 and 1, but the
compiled matcher produces the empty match list. -/
theorem c6_counterexample :
    compile c6_ir_empty LAny.all (U32StateBuilder.default Unit) =
      Except.ok c6_compiled_empty ∧
    matches_list (CompoundNFA.toMatcher c6_compiled_empty
        (fun _ (_ : Nat) => true)) (fun _ => 1) (fun c _ => c) () [0] = [] :=
  ⟨c6_compile_empty, by decide⟩

/-- C6, amended: it is the root alternation with one empty branch
(`Alternation([Concatenation([])])`, the ε-matching root) whose compiled
unanchored `Any`/`Any` matcher produces a zero-width match at every token
boundary from 0 to `|haystack|` inclusive: the match list is exactly
`(p, p)` for every cumulative byte offset `p` of the haystack, provided
every token has positive length. -/
theorem c6_matches_every_offset {T : Type} (lenT : T → Nat)
    (hlen : ∀ t, 1 ≤ lenT t) (hay : List T) :
    compile c6_ir_eps LAny.all (U32StateBuilder.default Unit) =
      Except.ok c6_compiled_eps ∧
    matches_list (CompoundNFA.toMatcher c6_compiled_eps (fun _ _ => true))
        lenT (fun c _ => c) () hay =
      (boundary_offsets lenT hay 0).map (fun p => (p, p)) := by
  refine ⟨c6_compile_eps, ?_⟩
  show matches_list (c6_ca T) lenT (fun c _ => c) () hay = _
  rw [matches_list]
  simp only [c6_ca_pre, c6_pre_initial]
  exact c6_matches_iter_eval lenT hlen hay {0, 1} 0 0 (Or.inl rfl)
    (Nat.le_refl 0)

theorem c6_witness :
    (∀ t : Nat, 1 ≤ (fun _ : Nat => 1) t) ∧
    (compile c6_ir_eps LAny.all (U32StateBuilder.default Unit) =
        Except.ok c6_compiled_eps ∧
      matches_list (CompoundNFA.toMatcher c6_compiled_eps (fun _ _ => true))
          (fun _ : Nat => 1) (fun c _ => c) () [7, 9] =
        (boundary_offsets (fun _ : Nat => 1) [7, 9] 0).map (fun p => (p, p))) ∧
    (boundary_offsets (fun _ : Nat => 1) [7, 9] 0).map (fun p => (p, p)) =
      [(0, 0), (1, 1), (2, 2)] :=
  ⟨fun _ => Nat.le_refl 1,
    c6_matches_every_offset (fun _ => 1) (fun _ => Nat.le_refl 1) [7, 9],
    rfl⟩


/-! ## C2: determinization (`NFA::determinize`, `nfa/mod.rs`)

Labels of the determinized NFA are `RangeSet<T>` values, embedded as
finite token sets (`Finset T`) with membership as token semantics; a
label's `iter()` over its ranges, and `RangeMap`'s range-splitting
`update`, are modelled at token granularity (`l.sort`), so the
determinized transition rows are keyed by single tokens. -/

/-- The deterministic automaton produced by `determinize`
(`DFA::from_parts`): initial state, final states (`BTreeSet`), and the
transition table mapping a state to its token-keyed row
(`DetTransitions`). -/
structure DFAd (R T : Type) where
  initial_state : R
  final_states : List R
  transitions : List (R × List (T × R))
deriving DecidableEq

/-- One `map.update(range, …)` call of `determinize_transitions_for` at a
single token of the range: extend the entry (empty when absent) with the
targets' closures. -/
def updT [DecidableEq T] [DecidableEq Q] (m : List (T × Finset Q)) (t : T)
    (A : Finset Q) : List (T × Finset Q) :=
  updateA m t ∅ (fun cur => cur ∪ A)

/-- `for q in targets { current.extend(self.modulo_epsilon_state(Some(q))) }`:
the union of the ε-closures of a transition's targets. -/
def target_closure [DecidableEq Q] (nfa : NFA Q L) (targets : List Q) :
    Finset Q :=
  targets.foldl (fun acc q => acc ∪ nfa.eps_closure {q}) ∅

/-- Ascending-order iteration of a finite set (`BTreeSet` iteration
order), by repeated minimum extraction; the fuel is the cardinality, so
the recursion is structural. -/
def sortFin [LinearOrder α] : Nat → Finset α → List α
  | 0, _ => []
  | fuel + 1, S =>
      if h : S.Nonempty then
        S.min' h :: sortFin fuel (S.erase (S.min' h))
      else []

/-- `BTreeSet` iteration: ascending order. -/
def finsetSort [LinearOrder α] (S : Finset α) : List α := sortFin S.card S

theorem mem_sortFin [LinearOrder α] {x : α} :
    ∀ (n : Nat) (S : Finset α), S.card ≤ n → (x ∈ sortFin n S ↔ x ∈ S) := by
  intro n
  induction n with
  | zero =>
      intro S hS
      have : S = ∅ := Finset.card_eq_zero.1 (Nat.le_zero.1 hS)
      subst this
      simp [sortFin]
  | succ n ih =>
      intro S hS
      rw [sortFin]
      by_cases h : S.Nonempty
      · rw [dif_pos h]
        have hcard : (S.erase (S.min' h)).card ≤ n := by
          rw [Finset.card_erase_of_mem (S.min'_mem h)]
          omega
        rw [List.mem_cons, ih _ hcard, Finset.mem_erase]
        constructor
        · rintro (rfl | ⟨-, h2⟩)
          · exact S.min'_mem h
          · exact h2
        · intro hx
          by_cases hxm : x = S.min' h
          · exact Or.inl hxm
          · exact Or.inr ⟨hxm, hx⟩
      · rw [dif_neg h]
        rw [Finset.not_nonempty_iff_eq_empty] at h
        subst h
        simp

theorem mem_finsetSort [LinearOrder α] {x : α} {S : Finset α} :
    x ∈ finsetSort S ↔ x ∈ S := mem_sortFin _ _ (Nat.le_refl _)

/-- `NFA::determinize_transitions_for` at token granularity: for each
state of the set (in `BTreeSet` order), each labelled transition, each
token of the label, update the row with the targets' ε-closures. The
final copy into `simplified_map` is the identity. -/
def det_row [LinearOrder Q] [LinearOrder T] (nfa : NFA Q (Finset T))
    (S : Finset Q) : List (T × Finset Q) :=
  (finsetSort S).foldl (fun m q =>
    (nfa.trans_of q).foldl (fun m e =>
      match e.1 with
      | some l => (finsetSort l).foldl
          (fun m t => updT m t (target_closure nfa e.2)) m
      | none => m) m) []

/-- The worklist loop of `NFA::determinize`: pop a det state, skip it if
its mapped name was already visited, otherwise record its finality and
its mapped row and push the row's target det states. Fuel-indexed:
`none` when the fuel runs out before the stack drains. -/
def dloop [LinearOrder Q] [LinearOrder T] [DecidableEq R]
    (nfa : NFA Q (Finset T)) (f : Finset Q → R) :
    Nat → List R → List R → List (R × List (T × R)) → List (Finset Q) →
    Option (List R × List (R × List (T × R)))
  | _, _, finals, tbl, [] => some (finals, tbl)
  | 0, _, _, _, _ :: _ => none
  | fuel + 1, visited, finals, tbl, D :: stack =>
      if f D ∈ visited then dloop nfa f fuel visited finals tbl stack
      else
        dloop nfa f fuel (insertS (f D) visited)
          (if decide (∃ q ∈ D, q ∈ nfa.final_states) then
            insertS (f D) finals else finals)
          (updateA tbl (f D) []
            (fun _ => (det_row nfa D).map (fun e => (e.1, f e.2))))
          (((det_row nfa D).map (fun e => e.2)).reverse ++ stack)

/-- `NFA::determinize`: start from the ε-closure of the initial states. -/
def determinizeE [LinearOrder Q] [LinearOrder T] [DecidableEq R]
    (nfa : NFA Q (Finset T)) (f : Finset Q → R) (fuel : Nat) :
    Option (DFAd R T) :=
  (dloop nfa f fuel [] [] []
    [nfa.eps_closure nfa.initial_states.toFinset]).map
    (fun p => ⟨f (nfa.eps_closure nfa.initial_states.toFinset), p.1, p.2⟩)

/-- Deterministic acceptance of the produced DFA under the `Automaton`
stepping contract: a token selects the row entry whose (token-granular)
range contains it; the word is accepted when the run survives to the end
of the word in a final state. -/
def dfa_accept [DecidableEq R] [DecidableEq T]
    (trans : List (R × List (T × R))) (finals : List R) :
    R → List T → Bool
  | r, [] => decide (r ∈ finals)
  | r, t :: w =>
      match (lookupA trans r).bind (fun row => lookupA row t) with
      | some r2 => dfa_accept trans finals r2 w
      | none => false

/-- Acceptance of a produced DFA from its initial state. -/
def DFAd.accepts [DecidableEq R] [DecidableEq T] (dfa : DFAd R T)
    (w : List T) : Bool :=
  dfa_accept dfa.transitions dfa.final_states dfa.initial_state w

theorem eps_closure_empty [DecidableEq Q] (nfa : NFA Q L) :
    nfa.eps_closure (∅ : Finset Q) = ∅ := by
  ext x
  simp [mem_eps_closure]

theorem mem_target_closure [DecidableEq Q] {nfa : NFA Q L}
    {targets : List Q} {x : Q} :
    x ∈ target_closure nfa targets ↔
      ∃ q ∈ targets, x ∈ nfa.eps_closure {q} := by
  have key : ∀ (l : List Q) (acc : Finset Q),
      (x ∈ l.foldl (fun acc q => acc ∪ nfa.eps_closure {q}) acc ↔
        x ∈ acc ∨ ∃ q ∈ l, x ∈ nfa.eps_closure {q}) := by
    intro l
    induction l with
    | nil => simp
    | cons q rest ih =>
        intro acc
        rw [List.foldl_cons, ih]
        simp only [Finset.mem_union, List.mem_cons]
        constructor
        · rintro ((h | h) | ⟨q2, hq2, hx⟩)
          · exact Or.inl h
          · exact Or.inr ⟨q, Or.inl rfl, h⟩
          · exact Or.inr ⟨q2, Or.inr hq2, hx⟩
        · rintro (h | ⟨q2, (rfl | hq2), hx⟩)
          · exact Or.inl (Or.inl h)
          · exact Or.inl (Or.inr hx)
          · exact Or.inr ⟨q2, hq2, hx⟩
  rw [target_closure, key]
  simp

theorem mem_labeled_targets [DecidableEq Q] {memT : L → T → Bool}
    {nfa : NFA Q L} {S : Finset Q} {t : T} {x : Q} :
    x ∈ nfa.labeled_targets memT S t ↔
      ∃ q ∈ S, ∃ e ∈ nfa.trans_of q,
        (∃ l, e.1 = some l ∧ memT l t = true) ∧ x ∈ e.2 := by
  simp only [NFA.labeled_targets, Finset.mem_biUnion, List.mem_toFinset,
    List.mem_flatMap]
  constructor
  · rintro ⟨q, hq, ⟨l0, ts⟩, he, hx⟩
    rcases l0 with _ | l
    · simp at hx
    · by_cases hm : memT l t
      · refine ⟨q, hq, ⟨some l, ts⟩, he, ⟨l, rfl, hm⟩, ?_⟩
        simpa [hm] using hx
      · simp [hm] at hx
  · rintro ⟨q, hq, ⟨l0, ts⟩, he, ⟨l, hl, hm⟩, hx⟩
    simp only at hl
    subst hl
    exact ⟨q, hq, ⟨some l, ts⟩, he, by simpa [hm] using hx⟩

theorem lookupA_updT_self [DecidableEq T] [DecidableEq Q]
    (m : List (T × Finset Q)) (t : T) (A : Finset Q) :
    lookupA (updT m t A) t = some ((lookupA m t).getD ∅ ∪ A) :=
  lookupA_updateA_self m t ∅ _

theorem lookupA_updT_other [DecidableEq T] [DecidableEq Q]
    (m : List (T × Finset Q)) {t t2 : T} (A : Finset Q) (h : t2 ≠ t) :
    lookupA (updT m t A) t2 = lookupA m t2 :=
  lookupA_updateA_other m ∅ _ h

/-- Presence of a key after folding a list of `updT` operations. -/
theorem foldl_updT_isSome [DecidableEq T] [DecidableEq Q]
    {t : T} :
    ∀ (ops : List (T × Finset Q)) (m0 : List (T × Finset Q)),
      (lookupA (ops.foldl (fun m p => updT m p.1 p.2) m0) t).isSome =
        ((lookupA m0 t).isSome || decide (∃ p ∈ ops, p.1 = t)) := by
  intro ops
  induction ops with
  | nil => simp
  | cons p rest ih =>
      intro m0
      rw [List.foldl_cons, ih]
      by_cases hp : p.1 = t
      · subst hp
        rw [lookupA_updT_self]
        simp
      · rw [lookupA_updT_other _ _ (fun h => hp h.symm)]
        have hiff : (∃ p2 ∈ p :: rest, p2.1 = t) ↔ ∃ p2 ∈ rest, p2.1 = t := by
          constructor
          · rintro ⟨p2, hp2, ht⟩
            rcases List.mem_cons.1 hp2 with rfl | h2
            · exact absurd ht hp
            · exact ⟨p2, h2, ht⟩
          · rintro ⟨p2, h2, ht⟩
            exact ⟨p2, List.mem_cons_of_mem _ h2, ht⟩
        simp only [hiff]

/-- Membership in the value at a key after folding `updT` operations. -/
theorem foldl_updT_mem [DecidableEq T] [DecidableEq Q]
    {t : T} {x : Q} :
    ∀ (ops : List (T × Finset Q)) (m0 : List (T × Finset Q)),
      (x ∈ (lookupA (ops.foldl (fun m p => updT m p.1 p.2) m0) t).getD ∅ ↔
        x ∈ (lookupA m0 t).getD ∅ ∨ ∃ p ∈ ops, p.1 = t ∧ x ∈ p.2) := by
  intro ops
  induction ops with
  | nil => simp
  | cons p rest ih =>
      intro m0
      rw [List.foldl_cons, ih]
      by_cases hp : p.1 = t
      · subst hp
        rw [lookupA_updT_self]
        simp only [Option.getD_some, Finset.mem_union, List.mem_cons]
        constructor
        · rintro ((h | h) | ⟨p2, hp2, ht, hx⟩)
          · exact Or.inl h
          · exact Or.inr ⟨p, Or.inl rfl, rfl, h⟩
          · exact Or.inr ⟨p2, Or.inr hp2, ht, hx⟩
        · rintro (h | ⟨p2, (rfl | hp2), ht, hx⟩)
          · exact Or.inl (Or.inl h)
          · exact Or.inl (Or.inr hx)
          · exact Or.inr ⟨p2, hp2, ht, hx⟩
      · rw [lookupA_updT_other _ _ (fun h => hp h.symm)]
        simp only [List.mem_cons]
        constructor
        · rintro (h | ⟨p2, hp2, ht, hx⟩)
          · exact Or.inl h
          · exact Or.inr ⟨p2, Or.inr hp2, ht, hx⟩
        · rintro (h | ⟨p2, (rfl | hp2), ht, hx⟩)
          · exact Or.inl h
          · exact absurd ht hp
          · exact Or.inr ⟨p2, hp2, ht, hx⟩

theorem foldl_flatMap_eq (g : α → List β) (f : γ → β → γ) :
    ∀ (l : List α) (i : γ),
      (l.flatMap g).foldl f i = l.foldl (fun acc x => (g x).foldl f acc) i := by
  intro l
  induction l with
  | nil => simp
  | cons a rest ih =>
      intro i
      rw [List.flatMap_cons, List.foldl_append, List.foldl_cons, ih]

/-- The flattened operation list of `determinize_transitions_for`. -/
def det_ops [LinearOrder Q] [LinearOrder T] (nfa : NFA Q (Finset T))
    (S : Finset Q) : List (T × Finset Q) :=
  (finsetSort S).flatMap (fun q =>
    (nfa.trans_of q).flatMap (fun e =>
      match e.1 with
      | some l => (finsetSort l).map
          (fun t => (t, target_closure nfa e.2))
      | none => []))

theorem det_row_eq_fold [LinearOrder Q] [LinearOrder T]
    (nfa : NFA Q (Finset T)) (S : Finset Q) :
    det_row nfa S = (det_ops nfa S).foldl (fun m p => updT m p.1 p.2) [] := by
  rw [det_row, det_ops, foldl_flatMap_eq]
  refine List.foldl_ext _ _ _ (fun m q hq => ?_)
  rw [foldl_flatMap_eq]
  refine List.foldl_ext _ _ _ (fun m2 e he => ?_)
  rcases e with ⟨l, ts⟩
  rcases l with _ | l
  · rfl
  · rw [List.foldl_map]

theorem mem_det_ops [LinearOrder Q] [LinearOrder T]
    {nfa : NFA Q (Finset T)} {S : Finset Q} {p : T × Finset Q} :
    p ∈ det_ops nfa S ↔
      ∃ q ∈ S, ∃ e ∈ nfa.trans_of q, ∃ l, e.1 = some l ∧ p.1 ∈ l ∧
        p.2 = target_closure nfa e.2 := by
  simp only [det_ops, List.mem_flatMap, mem_finsetSort]
  constructor
  · rintro ⟨q, hq, e, he, hp⟩
    rcases hl : e.1 with _ | l
    · rw [hl] at hp
      cases hp
    · rw [hl] at hp
      simp only [List.mem_map, mem_finsetSort] at hp
      obtain ⟨t, ht, rfl⟩ := hp
      exact ⟨q, hq, e, he, l, hl, ht, rfl⟩
  · rintro ⟨q, hq, e, he, l, hl, ht, hp2⟩
    refine ⟨q, hq, e, he, ?_⟩
    rw [hl]
    simp only [List.mem_map, mem_finsetSort]
    exact ⟨p.1, ht, by rw [← hp2]⟩


theorem mem_eps_closure_singleton [DecidableEq Q] {nfa : NFA Q L} {q x : Q} :
    x ∈ nfa.eps_closure {q} ↔ Relation.ReflTransGen (epsRel nfa) q x := by
  rw [mem_eps_closure]
  simp

theorem next_state_eq_some [DecidableEq Q] {memT : L → T → Bool}
    (nfa : NFA Q L) (S N : Finset Q) (t : T)
    (h : nfa.eps_closure (nfa.labeled_targets memT S t) = N)
    (hne : N.Nonempty) :
    nfa.next_state memT S t = some N := by
  simp only [NFA.next_state, h]
  exact if_pos hne

theorem next_state_eq_none [DecidableEq Q] {memT : L → T → Bool}
    (nfa : NFA Q L) (S : Finset Q) (t : T)
    (h : nfa.eps_closure (nfa.labeled_targets memT S t) = ∅) :
    nfa.next_state memT S t = none := by
  simp only [NFA.next_state, h]
  exact if_neg Finset.not_nonempty_empty

theorem initial_state_eq_none [DecidableEq Q] (nfa : NFA Q L)
    (h : nfa.eps_closure nfa.initial_states.toFinset = ∅) :
    nfa.initial_state = none := by
  simp only [NFA.initial_state, h]
  exact if_neg Finset.not_nonempty_empty

theorem labeled_targets_empty [DecidableEq Q] (memT : L → T → Bool)
    (nfa : NFA Q L) (t : T) :
    nfa.labeled_targets memT (∅ : Finset Q) t = ∅ := by
  simp [NFA.labeled_targets]

theorem det_row_empty [LinearOrder Q] [LinearOrder T]
    (nfa : NFA Q (Finset T)) : det_row nfa (∅ : Finset Q) = [] := by
  rw [det_row]
  simp [finsetSort, sortFin]

/-- A missing row entry at `t` means no label of any state of `S`
contains `t`: the labelled targets are empty. -/
theorem det_row_lookup_none [LinearOrder Q] [LinearOrder T]
    {nfa : NFA Q (Finset T)} {S : Finset Q} {t : T}
    (h : lookupA (det_row nfa S) t = none) :
    nfa.labeled_targets (fun l t => decide (t ∈ l)) S t = ∅ := by
  rw [det_row_eq_fold] at h
  have hs := foldl_updT_isSome (t := t) (det_ops nfa S) []
  rw [h] at hs
  simp only [Option.isSome_none, Bool.false_eq, Bool.or_eq_false_iff,
    decide_eq_false_iff_not] at hs
  ext x
  simp only [Finset.not_mem_empty, iff_false]
  intro hx
  rw [mem_labeled_targets] at hx
  obtain ⟨q, hq, e, he, ⟨l, hl, hm⟩, hxe⟩ := hx
  exact hs.2 ⟨(t, target_closure nfa e.2),
    mem_det_ops.2 ⟨q, hq, e, he, l, hl, by simpa using hm, rfl⟩, rfl⟩

/-- A present row entry at `t` is exactly the ε-closure of the labelled
targets at `t` (`next_state`'s set). -/
theorem det_row_lookup_some [LinearOrder Q] [LinearOrder T]
    {nfa : NFA Q (Finset T)} {S : Finset Q} {t : T} {D : Finset Q}
    (h : lookupA (det_row nfa S) t = some D) :
    D = nfa.eps_closure
      (nfa.labeled_targets (fun l t => decide (t ∈ l)) S t) := by
  rw [det_row_eq_fold] at h
  ext x
  have hm := foldl_updT_mem (t := t) (x := x) (det_ops nfa S) []
  rw [h] at hm
  simp only [Option.getD_some] at hm
  rw [hm]
  constructor
  · rintro (hx | ⟨p, hp, ht, hx⟩)
    · simp [lookupA] at hx
    · subst ht
      obtain ⟨q, hq, e, he, l, hl, htl, hp2⟩ := mem_det_ops.1 hp
      rw [hp2, mem_target_closure] at hx
      obtain ⟨q2, hq2, hx⟩ := hx
      rw [mem_eps_closure_singleton] at hx
      rw [mem_eps_closure]
      refine ⟨q2, ?_, hx⟩
      rw [mem_labeled_targets]
      exact ⟨q, hq, e, he, ⟨l, hl, by simpa using htl⟩, hq2⟩
  · intro hx
    rw [mem_eps_closure] at hx
    obtain ⟨q2, hq2, hrtg⟩ := hx
    rw [mem_labeled_targets] at hq2
    obtain ⟨q, hq, e, he, ⟨l, hl, hm2⟩, hq2e⟩ := hq2
    refine Or.inr ⟨(t, target_closure nfa e.2),
      mem_det_ops.2 ⟨q, hq, e, he, l, hl, by simpa using hm2, rfl⟩, rfl, ?_⟩
    rw [mem_target_closure]
    exact ⟨q2, hq2e, mem_eps_closure_singleton.2 hrtg⟩

theorem lookupA_cons_self [DecidableEq K] (k : K) (v : V)
    (rest : List (K × V)) : lookupA ((k, v) :: rest) k = some v := by
  simp [lookupA, List.find?_cons_of_pos]

theorem lookupA_cons_ne [DecidableEq K] {k0 k : K} (v : V)
    (rest : List (K × V)) (h : k0 ≠ k) :
    lookupA ((k0, v) :: rest) k = lookupA rest k := by
  simp only [lookupA]
  rw [List.find?_cons_of_neg _ (by simpa using h)]

theorem lookupA_map_snd {α : Type u} {β : Type v} [DecidableEq K] (f : α → β)
    (m : List (K × α)) (k : K) :
    lookupA (m.map (fun e => (e.1, f e.2))) k = (lookupA m k).map f := by
  induction m with
  | nil => rfl
  | cons e rest ih =>
      rcases e with ⟨k0, v⟩
      by_cases h : k0 = k
      · subst h
        simp [List.map_cons, lookupA_cons_self]
      · simp only [List.map_cons]
        rw [lookupA_cons_ne _ _ h, lookupA_cons_ne _ _ h, ih]


/-- Loop invariant of `determinize`'s worklist: visited names are exactly
the table's keys, finals are visited, and every recorded row is the
mapped row of a det state whose finality matches and whose row targets
are each visited or still on the stack. -/
def DInv [LinearOrder Q] [LinearOrder T] [DecidableEq R]
    (nfa : NFA Q (Finset T)) (f : Finset Q → R) (visited finals : List R)
    (tbl : List (R × List (T × R))) (stack : List (Finset Q)) : Prop :=
  (∀ r : R, r ∈ visited ↔ ∃ row, lookupA tbl r = some row) ∧
  (∀ r ∈ finals, r ∈ visited) ∧
  (∀ r row, lookupA tbl r = some row →
    ∃ D, f D = r ∧ row = (det_row nfa D).map (fun e => (e.1, f e.2)) ∧
      ((r ∈ finals) ↔ ∃ q ∈ D, q ∈ nfa.final_states) ∧
      (∀ e ∈ det_row nfa D, f e.2 ∈ visited ∨ e.2 ∈ stack))

/-- What the drained worklist guarantees: every row is the mapped row of
a det state with matching finality, and every row target has a row of
its own. -/
def DPost [LinearOrder Q] [LinearOrder T] [DecidableEq R]
    (nfa : NFA Q (Finset T)) (f : Finset Q → R) (finals : List R)
    (tbl : List (R × List (T × R))) : Prop :=
  ∀ r row, lookupA tbl r = some row →
    ∃ D, f D = r ∧ row = (det_row nfa D).map (fun e => (e.1, f e.2)) ∧
      ((r ∈ finals) ↔ ∃ q ∈ D, q ∈ nfa.final_states) ∧
      (∀ e ∈ det_row nfa D, ∃ row2, lookupA tbl (f e.2) = some row2)

theorem dinv_nil_post [LinearOrder Q] [LinearOrder T] [DecidableEq R]
    {nfa : NFA Q (Finset T)} {f : Finset Q → R} {visited finals : List R}
    {tbl : List (R × List (T × R))}
    (hinv : DInv nfa f visited finals tbl []) : DPost nfa f finals tbl := by
  obtain ⟨hkeys, hfinv, hrows⟩ := hinv
  intro r row hr
  obtain ⟨D, hD, hrow, hfin, htar⟩ := hrows r row hr
  refine ⟨D, hD, hrow, hfin, fun e he => ?_⟩
  rcases htar e he with hv | hs
  · exact (hkeys _).1 hv
  · exact absurd hs (List.not_mem_nil _)

theorem dloop_spec [LinearOrder Q] [LinearOrder T] [DecidableEq R]
    (nfa : NFA Q (Finset T)) (f : Finset Q → R) :
    ∀ (fuel : Nat) (visited finals : List R)
      (tbl : List (R × List (T × R))) (stack : List (Finset Q))
      (finalsOut : List R) (tblOut : List (R × List (T × R))),
      dloop nfa f fuel visited finals tbl stack = some (finalsOut, tblOut) →
      DInv nfa f visited finals tbl stack →
      (∀ r row, lookupA tbl r = some row → lookupA tblOut r = some row) ∧
      (∀ D ∈ stack, ∃ row, lookupA tblOut (f D) = some row) ∧
      DPost nfa f finalsOut tblOut := by
  intro fuel
  induction fuel with
  | zero =>
      intro visited finals tbl stack finalsOut tblOut h hinv
      cases stack with
      | nil =>
          simp only [dloop, Option.some.injEq, Prod.mk.injEq] at h
          obtain ⟨rfl, rfl⟩ := h
          exact ⟨fun r row hr => hr,
            fun D hD => absurd hD (List.not_mem_nil _), dinv_nil_post hinv⟩
      | cons D stack2 =>
          simp only [dloop] at h
          exact Option.noConfusion h
  | succ n ih =>
      intro visited finals tbl stack finalsOut tblOut h hinv
      cases stack with
      | nil =>
          simp only [dloop, Option.some.injEq, Prod.mk.injEq] at h
          obtain ⟨rfl, rfl⟩ := h
          exact ⟨fun r row hr => hr,
            fun D hD => absurd hD (List.not_mem_nil _), dinv_nil_post hinv⟩
      | cons D stack2 =>
          rw [dloop] at h
          obtain ⟨hkeys, hfinv, hrows⟩ := hinv
          by_cases hv : f D ∈ visited
          · rw [if_pos hv] at h
            have hinv2 : DInv nfa f visited finals tbl stack2 := by
              refine ⟨hkeys, hfinv, fun r row hr => ?_⟩
              obtain ⟨D2, hD2, hrow, hfin, htar⟩ := hrows r row hr
              refine ⟨D2, hD2, hrow, hfin, fun e he => ?_⟩
              rcases htar e he with h2 | h2
              · exact Or.inl h2
              · rcases List.mem_cons.1 h2 with rfl | h3
                · exact Or.inl hv
                · exact Or.inr h3
            obtain ⟨hmono, hstk, hpost⟩ :=
              ih visited finals tbl stack2 finalsOut tblOut h hinv2
            refine ⟨hmono, ?_, hpost⟩
            intro D2 hD2
            rcases List.mem_cons.1 hD2 with rfl | hD2
            · obtain ⟨row, hrow⟩ := (hkeys (f D2)).1 hv
              exact ⟨row, hmono _ _ hrow⟩
            · exact hstk D2 hD2
          · rw [if_neg hv] at h
            have hrmapD : lookupA (updateA tbl (f D) []
                (fun _ => (det_row nfa D).map (fun e => (e.1, f e.2))))
                (f D) = some ((det_row nfa D).map (fun e => (e.1, f e.2))) := by
              rw [lookupA_updateA_self]
            have hfD_notfin : f D ∉ finals := fun hc => hv (hfinv _ hc)
            have hkeys2 : ∀ r : R, r ∈ insertS (f D) visited ↔
                ∃ row, lookupA (updateA tbl (f D) []
                  (fun _ => (det_row nfa D).map (fun e => (e.1, f e.2))))
                  r = some row := by
              intro r
              by_cases hr : r = f D
              · subst hr
                exact iff_of_true (mem_insertS.2 (Or.inr rfl)) ⟨_, hrmapD⟩
              · rw [lookupA_updateA_other _ _ _ hr, mem_insertS]
                constructor
                · rintro (h2 | h2)
                  · exact (hkeys r).1 h2
                  · exact absurd h2 hr
                · intro h2
                  exact Or.inl ((hkeys r).2 h2)
            have hfin2 : ∀ r ∈ (if decide (∃ q ∈ D, q ∈ nfa.final_states)
                then insertS (f D) finals else finals),
                r ∈ insertS (f D) visited := by
              intro r hr
              by_cases hc : decide (∃ q ∈ D, q ∈ nfa.final_states) = true
              · rw [if_pos hc] at hr
                rcases mem_insertS.1 hr with h2 | h2
                · exact mem_insertS.2 (Or.inl (hfinv _ h2))
                · exact mem_insertS.2 (Or.inr h2)
              · rw [if_neg hc] at hr
                exact mem_insertS.2 (Or.inl (hfinv _ hr))
            have hrows2 : ∀ r row, lookupA (updateA tbl (f D) []
                (fun _ => (det_row nfa D).map (fun e => (e.1, f e.2))))
                r = some row →
                ∃ D2, f D2 = r ∧
                  row = (det_row nfa D2).map (fun e => (e.1, f e.2)) ∧
                  ((r ∈ (if decide (∃ q ∈ D, q ∈ nfa.final_states)
                    then insertS (f D) finals else finals)) ↔
                    ∃ q ∈ D2, q ∈ nfa.final_states) ∧
                  (∀ e ∈ det_row nfa D2, f e.2 ∈ insertS (f D) visited ∨
                    e.2 ∈ ((det_row nfa D).map (fun e => e.2)).reverse ++
                      stack2) := by
              intro r row hr
              by_cases hreq : r = f D
              · subst hreq
                rw [hrmapD] at hr
                obtain rfl : (det_row nfa D).map (fun e => (e.1, f e.2)) =
                    row := Option.some.inj hr
                refine ⟨D, rfl, rfl, ?_, fun e he => ?_⟩
                · by_cases hc : decide (∃ q ∈ D, q ∈ nfa.final_states) = true
                  · rw [if_pos hc]
                    exact iff_of_true (mem_insertS.2 (Or.inr rfl))
                      (of_decide_eq_true hc)
                  · rw [if_neg hc]
                    exact iff_of_false hfD_notfin
                      (of_decide_eq_false (Bool.not_eq_true _ ▸
                        Bool.of_not_eq_true hc))
                · refine Or.inr (List.mem_append_left _ ?_)
                  rw [List.mem_reverse]
                  exact List.mem_map.2 ⟨e, he, rfl⟩
              · rw [lookupA_updateA_other _ _ _ hreq] at hr
                obtain ⟨D2, hD2, hrow, hfin, htar⟩ := hrows r row hr
                refine ⟨D2, hD2, hrow, ?_, fun e he => ?_⟩
                · have hmem : (r ∈ (if decide (∃ q ∈ D, q ∈ nfa.final_states)
                      then insertS (f D) finals else finals)) ↔ r ∈ finals := by
                    by_cases hc : decide (∃ q ∈ D, q ∈ nfa.final_states) = true
                    · rw [if_pos hc, mem_insertS]
                      constructor
                      · rintro (h2 | h2)
                        · exact h2
                        · exact absurd h2 hreq
                      · exact Or.inl
                    · rw [if_neg hc]
                  rw [hmem]
                  exact hfin
                · rcases htar e he with h2 | h2
                  · exact Or.inl (mem_insertS.2 (Or.inl h2))
                  · rcases List.mem_cons.1 h2 with h3 | h3
                    · exact Or.inl (mem_insertS.2 (Or.inr (by rw [h3])))
                    · exact Or.inr (List.mem_append_right _ h3)
            obtain ⟨hmono2, hstk2, hpost⟩ :=
              ih _ _ _ _ finalsOut tblOut h ⟨hkeys2, hfin2, hrows2⟩
            have hmono : ∀ r row, lookupA tbl r = some row →
                lookupA tblOut r = some row := by
              intro r row hr
              have hrne : r ≠ f D := by
                rintro rfl
                exact hv ((hkeys _).2 ⟨row, hr⟩)
              exact hmono2 r row
                (by rw [lookupA_updateA_other _ _ _ hrne]; exact hr)
            refine ⟨hmono, ?_, hpost⟩
            intro D2 hD2
            rcases List.mem_cons.1 hD2 with rfl | hD2
            · exact ⟨_, hmono2 _ _ hrmapD⟩
            · exact hstk2 D2 (List.mem_append_right _ hD2)


theorem option_some_bind {α : Type u} {β : Type v} (a : α) (g : α → Option β) :
    (some a).bind g = g a := rfl

theorem option_map_some {α : Type u} {β : Type v} (a : α) (g : α → β) :
    (some a).map g = some (g a) := rfl

theorem option_map_none {α : Type u} {β : Type v} (g : α → β) :
    (none : Option α).map g = none := rfl

/-- A processed empty det state accepts nothing: it is non-final and its
row is empty. -/
theorem dfa_accept_dead [LinearOrder Q] [LinearOrder T] [DecidableEq R]
    {nfa : NFA Q (Finset T)} {f : Finset Q → R} {finals : List R}
    {tbl : List (R × List (T × R))} (hf : Function.Injective f)
    (hpost : DPost nfa f finals tbl) (w : List T)
    (row : List (T × R)) (hl : lookupA tbl (f (∅ : Finset Q)) = some row) :
    dfa_accept tbl finals (f (∅ : Finset Q)) w = false := by
  obtain ⟨D2, hD2, hrow, hfin, -⟩ := hpost _ _ hl
  obtain rfl : D2 = ∅ := hf hD2
  have hrow0 : row = [] := by rw [hrow, det_row_empty]; rfl
  cases w with
  | nil =>
      rw [dfa_accept]
      simp only [decide_eq_false_iff_not]
      intro hc
      exact absurd (hfin.1 hc) (by simp)
  | cons t w2 =>
      rw [dfa_accept]
      rw [hrow0] at hl
      rw [hl]
      rfl

/-- The run of the determinized table from the name of a processed det
state agrees with the NFA's visiting-set run from that det state. -/
theorem dfa_accept_bisim [LinearOrder Q] [LinearOrder T] [DecidableEq R]
    {nfa : NFA Q (Finset T)} {f : Finset Q → R} {finals : List R}
    {tbl : List (R × List (T × R))} (hf : Function.Injective f)
    (hpost : DPost nfa f finals tbl) :
    ∀ (w : List T) (D : Finset Q) (row : List (T × R)),
      lookupA tbl (f D) = some row →
      dfa_accept tbl finals (f D) w =
        NFA.contains_from (fun l t => decide (t ∈ l)) nfa D w := by
  intro w
  induction w with
  | nil =>
      intro D row hl
      obtain ⟨Dx, hDx, -, hfin, -⟩ := hpost _ _ hl
      rw [hf hDx] at hfin
      rw [dfa_accept, NFA.contains_from, NFA.is_final_visiting]
      exact decide_eq_decide.2 hfin
  | cons t w2 ih =>
      intro D row hl
      obtain ⟨Dx, hDx, hrow, -, htar⟩ := hpost _ _ hl
      rw [hf hDx] at hrow htar
      rw [dfa_accept, NFA.contains_from]
      rcases hrt : lookupA (det_row nfa D) t with _ | Dn
      · have hnone := next_state_eq_none nfa D t
          (by rw [det_row_lookup_none hrt, eps_closure_empty])
        rw [hl, hrow, option_some_bind, lookupA_map_snd, hrt,
          option_map_none, hnone]
      · have hDnc := det_row_lookup_some hrt
        by_cases hne : Dn.Nonempty
        · have hsome := next_state_eq_some nfa D Dn t hDnc.symm hne
          obtain ⟨row2, hrow2⟩ := htar _ (lookupA_mem hrt)
          rw [hl, hrow, option_some_bind, lookupA_map_snd, hrt,
            option_map_some, hsome]
          exact ih Dn row2 hrow2
        · obtain rfl : Dn = ∅ := Finset.not_nonempty_iff_eq_empty.1 hne
          have hnone := next_state_eq_none nfa D t (by rw [← hDnc])
          obtain ⟨row2, hrow2⟩ := htar _ (lookupA_mem hrt)
          rw [hl, hrow, option_some_bind, lookupA_map_snd, hrt,
            option_map_some, hnone]
          exact dfa_accept_dead hf hpost w2 row2 hrow2

/-- C2: for every NFA and injective state-mapping function, the word is
accepted by the NFA (under the `Automaton` stepping contract with
ε-closure) exactly when the DFA produced by `determinize` accepts it. -/
theorem c2_determinize_preserves_language [LinearOrder Q] [LinearOrder T]
    [DecidableEq R] (nfa : NFA Q (Finset T)) (f : Finset Q → R)
    (hf : Function.Injective f) (fuel : Nat) (dfa : DFAd R T)
    (hdet : determinizeE nfa f fuel = some dfa) (w : List T) :
    dfa.accepts w = NFA.contains (fun l t => decide (t ∈ l)) nfa w := by
  rw [determinizeE] at hdet
  obtain ⟨⟨finalsOut, tblOut⟩, hrun, rfl⟩ := Option.map_eq_some'.1 hdet
  have hinv0 : DInv nfa f [] [] []
      [nfa.eps_closure nfa.initial_states.toFinset] := by
    refine ⟨fun r => ?_, fun r hr => absurd hr (List.not_mem_nil _),
      fun r row hr => ?_⟩
    · simp [lookupA]
    · simp [lookupA] at hr
  obtain ⟨-, hstk, hpost⟩ :=
    dloop_spec nfa f fuel [] [] [] _ _ _ hrun hinv0
  obtain ⟨row0, hrow0⟩ := hstk _ (List.mem_cons_self _ _)
  by_cases hD0 : (nfa.eps_closure nfa.initial_states.toFinset).Nonempty
  · simp only [NFA.contains, initial_state_eq nfa _ rfl hD0, DFAd.accepts]
    exact dfa_accept_bisim hf hpost w _ row0 hrow0
  · have hD0e : nfa.eps_closure nfa.initial_states.toFinset = ∅ :=
      Finset.not_nonempty_iff_eq_empty.1 hD0
    simp only [NFA.contains, initial_state_eq_none nfa hD0e, DFAd.accepts]
    rw [hD0e] at hrow0 ⊢
    exact dfa_accept_dead hf hpost w row0 hrow0


/-- A three-state NFA with a labelled edge `0 →{5} 1` and an ε-edge
`0 →ε 2`, used to witness the determinization theorem. -/
def c2_nfa : NFA Nat (Finset Nat) :=
  ⟨[(0, [(some {5}, [1]), (none, [2])]), (1, []), (2, [])], [0], [1]⟩

theorem c2_witness :
    Function.Injective (fun S : Finset Nat => S) ∧
    determinizeE c2_nfa (fun S : Finset Nat => S) 5 =
      some ⟨{0, 2}, [{1}], [({0, 2}, [(5, {1})]), ({1}, [])]⟩ ∧
    DFAd.accepts (⟨{0, 2}, [{1}], [({0, 2}, [(5, {1})]), ({1}, [])]⟩ :
        DFAd (Finset Nat) Nat) [5] =
      NFA.contains (fun (l : Finset Nat) t => decide (t ∈ l)) c2_nfa [5] :=
  ⟨fun a b h => h, by decide,
    c2_determinize_preserves_language c2_nfa (fun S => S) (fun a b h => h) 5
      _ (by decide) [5]⟩


/-! ## C3: DFA minimization (`DFA::minimize`, `dfa.rs`)

The input DFA is `DFA<Q, L>` with its `BTreeMap`-of-`BTreeMap` transition
table; det states of the minimized automaton are blocks (`BTreeSet<&Q>`,
embedded as `Finset Q`).  `working.pop_first()` pops the head of the
worklist (standing in for `BTreeSet` minimum order); the property proved
below is independent of the processing order. -/

/-- `DFA<Q, L>` (`dfa.rs`): initial state, final states, deterministic
transition table. -/
structure DFAt (Q L : Type) where
  initial_state : Q
  final_states : List Q
  transitions : List (Q × List (L × Q))
deriving DecidableEq

/-- `BTreeMap::insert` (overwrite). -/
def insertA [DecidableEq K] (m : List (K × V)) (k : K) (v : V) :
    List (K × V) :=
  updateA m k v (fun _ => v)

/-- `DFA::add`: `transitions.entry(source).or_default().insert(label,
target)`; the final states are untouched. -/
def DFAt.add [DecidableEq Q] [DecidableEq L] (d : DFAt Q L) (s : Q) (l : L)
    (t : Q) : DFAt Q L :=
  ⟨d.initial_state, d.final_states,
    updateA d.transitions s [] (fun row => insertA row l t)⟩

/-- Acceptance of the input DFA by deterministic stepping. -/
def DFAt.accepts [DecidableEq Q] [DecidableEq L] (d : DFAt Q L)
    (w : List L) : Bool :=
  dfa_accept d.transitions d.final_states d.initial_state w

/-- The `sources_by_label` map of one `minimize` iteration: every source
with a transition labelled `l` into the current block `a`. -/
def sources_by_label [DecidableEq Q] [DecidableEq L] (d : DFAt Q L)
    (a : Finset Q) : List (L × Finset Q) :=
  d.transitions.foldl (fun m p =>
    p.2.foldl (fun m e =>
      if e.2 ∈ a then updateA m e.1 ∅ (fun s => insert p.1 s) else m) m) []

/-- One refinement pass of `minimize` for a fixed source set: split every
block of the partition snapshot that meets both the sources and their
complement, updating the worklist by Hopcroft's smaller-half rule. -/
def refine_one [DecidableEq Q] (sources : Finset Q)
    (pw : List (Finset Q) × List (Finset Q)) :
    List (Finset Q) × List (Finset Q) :=
  pw.1.foldl (fun pw2 y =>
    if (y ∩ sources).Nonempty ∧ (y \ sources).Nonempty then
      (insertS (y \ sources) (insertS (y ∩ sources)
          (pw2.1.filter (fun z => z ≠ y))),
        if y ∈ pw2.2 then
          insertS (y \ sources) (insertS (y ∩ sources)
            (pw2.2.filter (fun z => z ≠ y)))
        else if (y ∩ sources).card ≤ (y \ sources).card then
          insertS (y ∩ sources) pw2.2
        else insertS (y \ sources) pw2.2)
    else pw2) pw

/-- The `while let Some(a) = working.pop_first()` refinement loop,
fuel-indexed; returns the refined partition when the worklist drains. -/
def minloop [DecidableEq Q] [DecidableEq L] (d : DFAt Q L) :
    Nat → List (Finset Q) → List (Finset Q) → Option (List (Finset Q))
  | _, partition, [] => some partition
  | 0, _, _ :: _ => none
  | fuel + 1, partition, a :: working =>
      match ((sources_by_label d a).map (fun e => e.2)).foldl
          (fun pw sources => refine_one sources pw) (partition, working) with
      | (partition2, working2) => minloop d fuel partition2 working2

/-- The block map of the final partition: `map.insert(*q, member.clone())`
for every member and each of its states. -/
def stateMap [LinearOrder Q] (partition : List (Finset Q)) :
    List (Q × Finset Q) :=
  partition.foldl (fun m member =>
    (finsetSort member).foldl (fun m q => insertA m q member) m) []

/-- `DFA::minimize`: refine the seed partition, then rebuild a DFA over
blocks from `DFA::new(map[&initial])` by `add`-ing every lifted
transition. -/
def minimizeE_dfa [LinearOrder Q] [DecidableEq L] (d : DFAt Q L)
    (seed : List (Finset Q)) (fuel : Nat) :
    Option (DFAt (Finset Q) L) :=
  (minloop d fuel seed seed).map (fun partition =>
    d.transitions.foldl (fun result p =>
      p.2.foldl (fun result e =>
        result.add ((lookupA (stateMap partition) p.1).getD ∅) e.1
          ((lookupA (stateMap partition) e.2).getD ∅)) result)
      ⟨(lookupA (stateMap partition) d.initial_state).getD ∅, [], []⟩)

theorem foldl_invariant {α β : Type u} (g : β → α → β) (P : β → Prop)
    (hg : ∀ b a, P b → P (g b a)) :
    ∀ (l : List α) (b : β), P b → P (l.foldl g b) := by
  intro l
  induction l with
  | nil => exact fun b hb => hb
  | cons a rest ih => exact fun b hb => ih _ (hg b a hb)

/-- A DFA with no final state accepts nothing. -/
theorem dfa_accept_no_finals [DecidableEq R] [DecidableEq T]
    (tbl : List (R × List (T × R))) :
    ∀ (w : List T) (r : R), dfa_accept tbl [] r w = false := by
  intro w
  induction w with
  | nil => intro r; simp [dfa_accept]
  | cons t w2 ih =>
      intro r
      rw [dfa_accept]
      rcases h : (lookupA tbl r).bind (fun row => lookupA row t) with _ | r2
      · rfl
      · exact ih r2

/-- C3 (code bug): whatever the input DFA, the seed partition and the
refinement behaviour, the DFA built by `minimize` starts from
`DFA::new(..)` — whose final-state set is empty — and only ever calls
`add`, which never touches final states: the minimized automaton has no
final state and accepts no word, so it cannot recognize the language of
any input that accepts something, and its final states are not the blocks
containing old final states. -/
theorem c3_minimize_drops_finals {Q L : Type} [LinearOrder Q]
    [DecidableEq L] (d : DFAt Q L) (seed : List (Finset Q)) (fuel : Nat)
    (result : DFAt (Finset Q) L)
    (h : minimizeE_dfa d seed fuel = some result) :
    result.final_states = [] ∧ ∀ w, result.accepts w = false := by
  rw [minimizeE_dfa] at h
  obtain ⟨partition, -, rfl⟩ := Option.map_eq_some'.1 h
  have hfin : ∀ res : DFAt (Finset Q) L, res.final_states = [] →
      (d.transitions.foldl (fun result p =>
        p.2.foldl (fun result e =>
          result.add ((lookupA (stateMap partition) p.1).getD ∅) e.1
            ((lookupA (stateMap partition) e.2).getD ∅)) result)
        res).final_states = [] := by
    intro res hres
    refine foldl_invariant _ (fun r : DFAt (Finset Q) L => r.final_states = []) ?_ _ _ hres
    intro b p hb
    refine foldl_invariant _ (fun r : DFAt (Finset Q) L => r.final_states = []) ?_ _ _ hb
    intro b2 e hb2
    simpa [DFAt.add] using hb2
  have hfin2 := hfin ⟨(lookupA (stateMap partition) d.initial_state).getD ∅, [], []⟩ rfl
  refine ⟨hfin2, fun w => ?_⟩
  rw [DFAt.accepts, hfin2]
  exact dfa_accept_no_finals _ w _

/-- The one-state DFA whose initial state is final and which accepts
exactly the empty word. -/
def c3_dfa : DFAt Nat Nat := ⟨0, [0], [(0, [])]⟩

theorem c3_witness :
    DFAt.accepts c3_dfa [] = true ∧
    minimizeE_dfa c3_dfa [{0}] 2 =
      some (⟨{0}, [], []⟩ : DFAt (Finset Nat) Nat) ∧
    ((⟨{0}, [], []⟩ : DFAt (Finset Nat) Nat).final_states = [] ∧
      ∀ w, DFAt.accepts (⟨{0}, [], []⟩ : DFAt (Finset Nat) Nat) w = false) :=
  ⟨by decide, by decide,
    c3_minimize_drops_finals c3_dfa [{0}] 2 _ (by decide)⟩


/-! ## C9: `token_set_intersection` (`lib.rs`)

Only the intersection loop (`result = a.clone(); for r in b.gaps() {
result.remove(r) }`) lives in this repository; `RangeSet`, its `gaps` and
`remove` come from the external `btree_range_map` crate and are modelled
from the spec's description: a canonical range set over the bounded token
domain `0..=N` is a sorted list of disjoint, non-adjacent, non-empty
inclusive ranges; `gaps` walks the set collecting the complement ranges;
`remove` subtracts an interval from every range. -/

/-- Membership of a token in a range set. -/
def MemR (s : List (Nat × Nat)) (x : Nat) : Prop :=
  ∃ r ∈ s, r.1 ≤ x ∧ x ≤ r.2

instance (s : List (Nat × Nat)) (x : Nat) : Decidable (MemR s x) := by
  unfold MemR
  infer_instance

/-- `RangeSet::remove`: subtract the inclusive interval `g` from every
range, keeping the left and right remainders. -/
def removeR (g : Nat × Nat) (s : List (Nat × Nat)) : List (Nat × Nat) :=
  s.flatMap (fun r =>
    (if r.1 < g.1 then [(r.1, min r.2 (g.1 - 1))] else []) ++
    (if g.2 < r.2 then [(max r.1 (g.2 + 1), r.2)] else []))

/-- `RangeSet::gaps` from a lower bound: the maximal ranges of the
complement within `lo..=N`. -/
def gapsAux (N : Nat) : Nat → List (Nat × Nat) → List (Nat × Nat)
  | lo, [] => if lo ≤ N then [(lo, N)] else []
  | lo, (a, b) :: rest =>
      (if lo < a then [(lo, a - 1)] else []) ++ gapsAux N (b + 1) rest

/-- `token_set_intersection` (`lib.rs`): `a` minus each gap of `b`. -/
def token_set_intersection (N : Nat) (a b : List (Nat × Nat)) :
    List (Nat × Nat) :=
  (gapsAux N 0 b).foldl (fun result r => removeR r result) a

/-- Canonical range set over `lo..=N`: sorted, each range non-empty and
within bounds, consecutive ranges separated by at least one token. -/
def canonFrom (N : Nat) : Nat → List (Nat × Nat) → Bool
  | _, [] => true
  | lo, (a, b) :: rest =>
      decide (lo ≤ a) && decide (a ≤ b) && decide (b ≤ N) &&
        canonFrom N (b + 2) rest

theorem canonFrom_mono {N : Nat} :
    ∀ (s : List (Nat × Nat)) {lo lo2 : Nat}, lo2 ≤ lo →
      canonFrom N lo s = true → canonFrom N lo2 s = true := by
  intro s
  cases s with
  | nil => intro lo lo2 h hc; rfl
  | cons r rest =>
      intro lo lo2 h hc
      obtain ⟨a, b⟩ := r
      simp only [canonFrom, Bool.and_eq_true, decide_eq_true_eq] at hc ⊢
      exact ⟨⟨⟨by omega, hc.1.1.2⟩, hc.1.2⟩, hc.2⟩

theorem MemR_bounds {N : Nat} :
    ∀ (s : List (Nat × Nat)) (lo x : Nat), canonFrom N lo s = true →
      MemR s x → lo ≤ x ∧ x ≤ N := by
  intro s
  induction s with
  | nil => rintro lo x - ⟨r, hr, -⟩; cases hr
  | cons r rest ih =>
      rintro lo x hc ⟨r2, hr2, hx1, hx2⟩
      obtain ⟨a, b⟩ := r
      simp only [canonFrom, Bool.and_eq_true, decide_eq_true_eq] at hc
      rcases List.mem_cons.1 hr2 with rfl | h2
      · exact ⟨by omega, by omega⟩
      · have := ih (b + 2) x hc.2 ⟨r2, h2, hx1, hx2⟩
        exact ⟨by omega, this.2⟩

/-- Removal at the membership level. -/
theorem mem_removeR {g : Nat × Nat} {x : Nat} :
    ∀ s : List (Nat × Nat),
      MemR (removeR g s) x ↔ MemR s x ∧ ¬(g.1 ≤ x ∧ x ≤ g.2) := by
  intro s
  induction s with
  | nil => simp [MemR, removeR]
  | cons r rest ih =>
      rw [show removeR g (r :: rest) =
        ((if r.1 < g.1 then [(r.1, min r.2 (g.1 - 1))] else []) ++
          (if g.2 < r.2 then [(max r.1 (g.2 + 1), r.2)] else [])) ++
          removeR g rest from rfl]
      constructor
      · rintro ⟨r2, hr2, hx1, hx2⟩
        rcases List.mem_append.1 hr2 with h2 | h2
        · rcases List.mem_append.1 h2 with h3 | h3
          · by_cases hcond : r.1 < g.1
            · rw [if_pos hcond] at h3
              rcases List.mem_singleton.1 h3 with rfl
              refine ⟨⟨r, List.mem_cons_self _ _, by simpa using hx1,
                by simp at hx2; omega⟩, by simp at hx2; omega⟩
            · rw [if_neg hcond] at h3
              cases h3
          · by_cases hcond : g.2 < r.2
            · rw [if_pos hcond] at h3
              rcases List.mem_singleton.1 h3 with rfl
              refine ⟨⟨r, List.mem_cons_self _ _, by simp at hx1; omega,
                by simpa using hx2⟩, by simp at hx1; omega⟩
            · rw [if_neg hcond] at h3
              cases h3
        · obtain ⟨⟨r3, hr3, hm⟩, hg⟩ := ih.1 ⟨r2, h2, hx1, hx2⟩
          exact ⟨⟨r3, List.mem_cons_of_mem _ hr3, hm⟩, hg⟩
      · rintro ⟨⟨r2, hr2, hx1, hx2⟩, hg⟩
        rcases List.mem_cons.1 hr2 with rfl | h2
        · by_cases hlt : x < g.1
          · refine ⟨(r2.1, min r2.2 (g.1 - 1)), ?_, by simpa using hx1,
              by simp; omega⟩
            apply List.mem_append_left
            apply List.mem_append_left
            rw [if_pos (by omega)]
            exact List.mem_singleton.2 rfl
          · have hgt : g.2 < x := by omega
            refine ⟨(max r2.1 (g.2 + 1), r2.2), ?_, by simp; omega,
              by simpa using hx2⟩
            apply List.mem_append_left
            apply List.mem_append_right
            rw [if_pos (by omega)]
            exact List.mem_singleton.2 rfl
        · obtain ⟨r3, hr3, hm⟩ := ih.2 ⟨⟨r2, h2, hx1, hx2⟩, hg⟩
          exact ⟨r3, List.mem_append_right _ hr3, hm⟩

/-- Folded removal at the membership level. -/
theorem mem_fold_remove {x : Nat} :
    ∀ (ops : List (Nat × Nat)) (s : List (Nat × Nat)),
      MemR (ops.foldl (fun res g => removeR g res) s) x ↔
        MemR s x ∧ ∀ g ∈ ops, ¬(g.1 ≤ x ∧ x ≤ g.2) := by
  intro ops
  induction ops with
  | nil => simp
  | cons g rest ih =>
      intro s
      rw [List.foldl_cons, ih, mem_removeR]
      constructor
      · rintro ⟨⟨hm, hg⟩, hrest⟩
        refine ⟨hm, fun g2 hg2 => ?_⟩
        rcases List.mem_cons.1 hg2 with rfl | h2
        · exact hg
        · exact hrest g2 h2
      · rintro ⟨hm, hall⟩
        exact ⟨⟨hm, hall g (List.mem_cons_self _ _)⟩,
          fun g2 hg2 => hall g2 (List.mem_cons_of_mem _ hg2)⟩

theorem mem_gapsAux_lb {N : Nat} :
    ∀ (s : List (Nat × Nat)) (lo x : Nat), canonFrom N lo s = true →
      MemR (gapsAux N lo s) x → lo ≤ x := by
  intro s
  induction s with
  | nil =>
      rintro lo x - ⟨r, hr, hx1, hx2⟩
      rw [gapsAux] at hr
      by_cases h : lo ≤ N
      · rw [if_pos h] at hr
        rcases List.mem_singleton.1 hr with rfl
        exact hx1
      · rw [if_neg h] at hr
        cases hr
  | cons r rest ih =>
      rintro lo x hc ⟨r2, hr2, hx1, hx2⟩
      obtain ⟨a, b⟩ := r
      simp only [canonFrom, Bool.and_eq_true, decide_eq_true_eq] at hc
      rw [gapsAux] at hr2
      rcases List.mem_append.1 hr2 with h2 | h2
      · by_cases hcond : lo < a
        · rw [if_pos hcond] at h2
          rcases List.mem_singleton.1 h2 with rfl
          exact hx1
        · rw [if_neg hcond] at h2
          cases h2
      · have := ih (b + 1) x (canonFrom_mono rest (by omega) hc.2)
          ⟨r2, h2, hx1, hx2⟩
        omega

/-- Gap membership is exactly non-membership, within the domain. -/
theorem mem_gapsAux {N : Nat} :
    ∀ (s : List (Nat × Nat)) (lo x : Nat), canonFrom N lo s = true →
      lo ≤ x → x ≤ N → (MemR (gapsAux N lo s) x ↔ ¬ MemR s x) := by
  intro s
  induction s with
  | nil =>
      rintro lo x - hlo hN
      rw [gapsAux, if_pos (by omega)]
      simp only [MemR, List.mem_singleton]
      constructor
      · rintro - ⟨r, hr, -⟩
        cases hr
      · rintro -
        exact ⟨(lo, N), rfl, hlo, hN⟩
  | cons r rest ih =>
      intro lo x hc hlo hN
      obtain ⟨a, b⟩ := r
      simp only [canonFrom, Bool.and_eq_true, decide_eq_true_eq] at hc
      obtain ⟨⟨⟨hla, hab⟩, hbN⟩, hrest⟩ := hc
      rw [gapsAux]
      by_cases hxb : b + 1 ≤ x
      · have hih := ih (b + 1) x (canonFrom_mono rest (by omega) hrest)
          (by omega) hN
        constructor
        · intro hm
          rcases hm with ⟨r2, hr2, hx1, hx2⟩
          rcases List.mem_append.1 hr2 with h2 | h2
          · by_cases hcond : lo < a
            · rw [if_pos hcond] at h2
              rcases List.mem_singleton.1 h2 with rfl
              omega
            · rw [if_neg hcond] at h2
              cases h2
          · rintro ⟨r3, hr3, hy1, hy2⟩
            rcases List.mem_cons.1 hr3 with rfl | h3
            · omega
            · exact (hih.1 ⟨r2, h2, hx1, hx2⟩) ⟨r3, h3, hy1, hy2⟩
        · intro hm
          have hrec : ¬ MemR rest x := fun ⟨r3, h3, hy⟩ =>
            hm ⟨r3, List.mem_cons_of_mem _ h3, hy⟩
          obtain ⟨r2, hr2, hx⟩ := hih.2 hrec
          exact ⟨r2, List.mem_append_right _ hr2, hx⟩
      · by_cases hxa : x < a
        · constructor
          · rintro - ⟨r3, hr3, hy1, hy2⟩
            rcases List.mem_cons.1 hr3 with rfl | h3
            · omega
            · have := MemR_bounds rest (b + 2) x hrest ⟨r3, h3, hy1, hy2⟩
              omega
          · rintro -
            refine ⟨(lo, a - 1), ?_, hlo, by omega⟩
            apply List.mem_append_left
            rw [if_pos (by omega)]
            exact List.mem_singleton.2 rfl
        · have hin : MemR ((a, b) :: rest) x :=
            ⟨(a, b), List.mem_cons_self _ _, by omega, by omega⟩
          constructor
          · rintro ⟨r2, hr2, hx1, hx2⟩
            rcases List.mem_append.1 hr2 with h2 | h2
            · by_cases hcond : lo < a
              · rw [if_pos hcond] at h2
                rcases List.mem_singleton.1 h2 with rfl
                omega
              · rw [if_neg hcond] at h2
                cases h2
            · have := mem_gapsAux_lb rest (b + 1) x
                (canonFrom_mono rest (by omega) hrest) ⟨r2, h2, hx1, hx2⟩
              omega
          · intro hm
            exact absurd hin hm

/-- The gaps of a canonical set are canonical. -/
theorem canonFrom_gapsAux {N : Nat} :
    ∀ (s : List (Nat × Nat)) (lo : Nat), canonFrom N lo s = true →
      canonFrom N lo (gapsAux N lo s) = true := by
  intro s
  induction s with
  | nil =>
      rintro lo -
      rw [gapsAux]
      by_cases h : lo ≤ N
      · rw [if_pos h]
        simp [canonFrom, h]
      · rw [if_neg h]
        rfl
  | cons r rest ih =>
      intro lo hc
      obtain ⟨a, b⟩ := r
      simp only [canonFrom, Bool.and_eq_true, decide_eq_true_eq] at hc
      obtain ⟨⟨⟨hla, hab⟩, hbN⟩, hrest⟩ := hc
      rw [gapsAux]
      have hrec : canonFrom N (b + 1) (gapsAux N (b + 1) rest) = true :=
        ih (b + 1) (canonFrom_mono rest (by omega) hrest)
      by_cases hcond : lo < a
      · rw [if_pos hcond]
        simp only [List.singleton_append, canonFrom, Bool.and_eq_true,
          decide_eq_true_eq]
        exact ⟨⟨⟨Nat.le_refl lo, by omega⟩, by omega⟩,
          canonFrom_mono _ (by omega) hrec⟩
      · rw [if_neg hcond]
        rw [List.nil_append]
        exact canonFrom_mono _ (by omega) hrec

/-- C9: the intersection, computed as `a` minus each gap of `b`, is
contained in `a` and in `b`, and the intersection of `a` with its
complement (the collected gaps of `a`) is empty — at every token. -/
theorem c9_intersection_properties {N : Nat} (a b : List (Nat × Nat))
    (ha : canonFrom N 0 a = true) (hb : canonFrom N 0 b = true) (x : Nat) :
    (MemR (token_set_intersection N a b) x → MemR a x ∧ MemR b x) ∧
    ¬ MemR (token_set_intersection N a (gapsAux N 0 a)) x := by
  constructor
  · intro hm
    rw [token_set_intersection, mem_fold_remove] at hm
    obtain ⟨hma, hgaps⟩ := hm
    refine ⟨hma, ?_⟩
    have hxN : x ≤ N := (MemR_bounds a 0 x ha hma).2
    by_contra hnb
    obtain ⟨g, hg, hx⟩ :=
      (mem_gapsAux b 0 x hb (Nat.zero_le x) hxN).2 hnb
    exact hgaps g hg hx
  · intro hm
    rw [token_set_intersection, mem_fold_remove] at hm
    obtain ⟨hma, hgaps⟩ := hm
    have hxN : x ≤ N := (MemR_bounds a 0 x ha hma).2
    have hcg : canonFrom N 0 (gapsAux N 0 a) = true :=
      canonFrom_gapsAux a 0 ha
    have hgg : MemR (gapsAux N 0 (gapsAux N 0 a)) x := by
      rw [mem_gapsAux (gapsAux N 0 a) 0 x hcg (Nat.zero_le x) hxN,
        mem_gapsAux a 0 x ha (Nat.zero_le x) hxN]
      exact not_not_intro hma
    obtain ⟨g, hg, hx⟩ := hgg
    exact hgaps g hg hx

theorem c9_witness :
    canonFrom 10 0 [(1, 3), (6, 8)] = true ∧
    canonFrom 10 0 [(2, 6)] = true ∧
    ((MemR (token_set_intersection 10 [(1, 3), (6, 8)] [(2, 6)]) 2 →
        MemR [(1, 3), (6, 8)] 2 ∧ MemR [(2, 6)] 2) ∧
      ¬ MemR (token_set_intersection 10 [(1, 3), (6, 8)]
          (gapsAux 10 0 [(1, 3), (6, 8)])) 2) :=
  ⟨by decide, by decide,
    c9_intersection_properties [(1, 3), (6, 8)] [(2, 6)]
      (by decide) (by decide) 2⟩

end IRegexVerify
